import Mathlib

/-!
Verification of the dataflows layout and routing engine against its
natural-language specification.

The development shallowly embeds, in Lean, the parts of the source that the
checked claims are about:

* the flow keyframe normalisation of the loader (`enhanceFlows`),
* the subsystem size and port computation of the loader (`computeSizes`),
* the weighted A* path finder (`PathFinder.findPath` and `Grid`),
* the route recording of the simulator (`SystemSimulator.drawLinks`),
* the boundary and grid-position computation of the simulator
  (`computeBoundaries`, `computeSystemPositions`),
* the object lookup of the simulator (`getObjectsAt`),
* the link validator (`validate`; its source file is not part of the
  repository snapshot, so it is modelled from the specification and from the
  load test suite that is part of the snapshot).

JavaScript numbers are modelled as `ℤ` where the source only ever holds
integers (coordinates, keyframes, counts) and as `ℚ` where the source does
arithmetic on scores and weights; the value `Infinity` used as a grid weight
is modelled as `none` in an `Option ℚ`.
-/

namespace Dataflows

/-! ## Loader: keyframe normalisation (`enhanceFlows`)

The loader collects the step keyframes of a flow into a JavaScript `Set`
(first occurrences, insertion order), turns the set into an array, sorts the
array with `Array.prototype.sort()`'s default comparator — which compares the
*decimal string representations* of the numbers by UTF-16 code units — and
replaces every step's keyframe by `indexOf` into the sorted array.
Keyframes are modelled as naturals; their decimal strings are compared with
Lean's `String` order, which agrees with the UTF-16 code-unit order on ASCII
digits. -/

/-- One step of `new Set()` insertion: a JavaScript `Set` keeps first
occurrences in insertion order. -/
def insertUnique (l : List ℕ) (x : ℕ) : List ℕ :=
  if x ∈ l then l else l ++ [x]

/-- `Array.from(uniqueKeyframes)` for the `Set` built by inserting every step
keyframe in order (`enhanceFlows`). -/
def uniqueKeyframes (ks : List ℕ) : List ℕ :=
  ks.foldl insertUnique []

/-- The decimal digits of a natural number, most significant first (the
digits of JavaScript's `String(n)` for a non-negative integer).  The first
argument is fuel; `n + 1` units always suffice since `n / 10 < n` for
`n ≥ 10`. -/
def decimalDigitsAux : ℕ → ℕ → List ℕ
  | 0, _ => []
  | fuel + 1, n => if n < 10 then [n] else decimalDigitsAux fuel (n / 10) ++ [n % 10]

/-- The decimal digits of `String(n)`, most significant first. -/
def decimalDigits (n : ℕ) : List ℕ :=
  decimalDigitsAux (n + 1) n

/-- Lexicographic order on digit sequences.  On decimal digits it agrees with
the UTF-16 code-unit order that the default `Array.prototype.sort()`
comparator uses on the strings, because the code points of `0`..`9` are in
numeric order. -/
def digitsLe : List ℕ → List ℕ → Bool
  | [], _ => true
  | _ :: _, [] => false
  | a :: as, b :: bs =>
    if a < b then true else if b < a then false else digitsLe as bs

/-- The default `Array.prototype.sort()` comparator: numbers are converted to
strings and the strings compared lexicographically by code unit. -/
def jsLe (a b : ℕ) : Bool :=
  digitsLe (decimalDigits a) (decimalDigits b)

/-- Insertion step of a comparison sort under the default JavaScript
comparator. -/
def insertSortedJs (a : ℕ) : List ℕ → List ℕ
  | [] => [a]
  | b :: l => if jsLe a b then a :: b :: l else b :: insertSortedJs a l

/-- `Array.prototype.sort()` with the default comparator, as used on
`Array.from(uniqueKeyframes)` in `enhanceFlows`.  The sorted elements are
pairwise distinct, so any comparison sort produces the same array. -/
def jsSort (l : List ℕ) : List ℕ :=
  l.foldr insertSortedJs []

/-- JavaScript `Array.prototype.indexOf`: the index of the first occurrence,
`-1` when the element is absent. -/
def jsIndexOf (l : List ℕ) (x : ℕ) : ℤ :=
  if x ∈ l then (l.indexOf x : ℤ) else -1

/-- Keyframe normalisation by `enhanceFlows`: every step keyframe is replaced
by its `indexOf` in the default-sorted array of distinct keyframes. -/
def normalizeKeyframes (ks : List ℕ) : List ℤ :=
  let keyframes := jsSort (uniqueKeyframes ks)
  ks.map (fun k => jsIndexOf keyframes k)

/-- Insertion step of a numerically ascending sort. -/
def insertSortedNum (a : ℕ) : List ℕ → List ℕ
  | [] => [a]
  | b :: l => if a ≤ b then a :: b :: l else b :: insertSortedNum a l

/-- Numerically ascending sort. -/
def numSort (l : List ℕ) : List ℕ :=
  l.foldr insertSortedNum []

/-- The normalisation the specification describes: each keyframe replaced by
its rank in the *numerically* ascending sorted list of distinct keyframes.
This follows the specification's words and is compared against
`normalizeKeyframes`, which follows the source. -/
def specNormalizeKeyframes (ks : List ℕ) : List ℤ :=
  let keyframes := numSort (uniqueKeyframes ks)
  ks.map (fun k => jsIndexOf keyframes k)

theorem mem_insertUnique {l : List ℕ} {k x : ℕ} :
    x ∈ insertUnique l k ↔ x ∈ l ∨ x = k := by
  unfold insertUnique
  by_cases hk : k ∈ l
  · simp only [if_pos hk]
    constructor
    · exact fun h => Or.inl h
    · rintro (h | rfl)
      · exact h
      · exact hk
  · simp [if_neg hk]

theorem nodup_insertUnique {l : List ℕ} (h : l.Nodup) (k : ℕ) :
    (insertUnique l k).Nodup := by
  unfold insertUnique
  by_cases hk : k ∈ l
  · simp [if_pos hk, h]
  · simp [if_neg hk, List.nodup_append, h, hk]

theorem mem_foldl_insertUnique (ks : List ℕ) :
    ∀ (acc : List ℕ) (x : ℕ), x ∈ ks.foldl insertUnique acc ↔ x ∈ acc ∨ x ∈ ks := by
  induction ks with
  | nil => simp
  | cons k ks ih =>
    intro acc x
    simp only [List.foldl_cons, ih, mem_insertUnique, List.mem_cons]
    tauto

theorem nodup_foldl_insertUnique (ks : List ℕ) :
    ∀ acc : List ℕ, acc.Nodup → (ks.foldl insertUnique acc).Nodup := by
  induction ks with
  | nil => exact fun _ h => h
  | cons k ks ih =>
    intro acc hacc
    exact ih _ (nodup_insertUnique hacc k)

theorem mem_uniqueKeyframes {ks : List ℕ} {x : ℕ} :
    x ∈ uniqueKeyframes ks ↔ x ∈ ks := by
  unfold uniqueKeyframes
  rw [mem_foldl_insertUnique]
  simp

theorem nodup_uniqueKeyframes (ks : List ℕ) : (uniqueKeyframes ks).Nodup :=
  nodup_foldl_insertUnique ks [] List.nodup_nil

theorem insertSortedJs_perm (a : ℕ) (l : List ℕ) :
    (insertSortedJs a l).Perm (a :: l) := by
  induction l with
  | nil => simp [insertSortedJs]
  | cons b l ih =>
    unfold insertSortedJs
    by_cases h : jsLe a b = true
    · simp [h]
    · rw [if_neg (by simp [h])]
      exact (List.Perm.cons b ih).trans (List.Perm.swap a b l)

theorem jsSort_perm (l : List ℕ) : (jsSort l).Perm l := by
  induction l with
  | nil => simp [jsSort]
  | cons a l ih =>
    have : jsSort (a :: l) = insertSortedJs a (jsSort l) := rfl
    rw [this]
    exact (insertSortedJs_perm a (jsSort l)).trans (List.Perm.cons a ih)

/-- The sorted array of distinct keyframes built by `enhanceFlows`. -/
def sortedKeyframes (ks : List ℕ) : List ℕ :=
  jsSort (uniqueKeyframes ks)

theorem mem_sortedKeyframes {ks : List ℕ} {x : ℕ} :
    x ∈ sortedKeyframes ks ↔ x ∈ ks :=
  Iff.trans ((jsSort_perm (uniqueKeyframes ks)).mem_iff) mem_uniqueKeyframes

theorem nodup_sortedKeyframes (ks : List ℕ) : (sortedKeyframes ks).Nodup :=
  ((jsSort_perm (uniqueKeyframes ks)).nodup_iff).mpr (nodup_uniqueKeyframes ks)

theorem length_sortedKeyframes (ks : List ℕ) :
    (sortedKeyframes ks).length = ks.toFinset.card := by
  have hlen : (sortedKeyframes ks).length = (sortedKeyframes ks).toFinset.card :=
    (List.toFinset_card_of_nodup (nodup_sortedKeyframes ks)).symm
  rw [hlen]
  congr 1
  ext x
  simp [List.mem_toFinset, mem_sortedKeyframes]

theorem normalizeKeyframes_eq_map (ks : List ℕ) :
    normalizeKeyframes ks = ks.map (fun k => jsIndexOf (sortedKeyframes ks) k) := rfl

/-- Claim C2 (code bug evidence): on the flow of the specification's own
example, with step keyframes `[10, 5, 5, 20]`, the loader normalises to
`[0, 2, 2, 1]` — because `Array.prototype.sort()` without a comparator sorts
the numbers as strings (`[10, 20, 5]`) — and not to the claimed `[1, 0, 0, 2]`,
which is what rank in the numerically ascending sorted distinct set
(`specNormalizeKeyframes`, following the specification's words) gives. -/
theorem c2_normalizeKeyframes_failing_input :
    normalizeKeyframes [10, 5, 5, 20] = [0, 2, 2, 1] ∧
      specNormalizeKeyframes [10, 5, 5, 20] = [1, 0, 0, 2] ∧
      normalizeKeyframes [10, 5, 5, 20] ≠ [1, 0, 0, 2] := by
  refine ⟨by decide, by decide, by decide⟩

/-- Claim C8: after normalisation the keyframes of a flow with a non-empty
step list form exactly the dense range `{0, …, k − 1}`, where `k` is the
number of distinct input keyframes: every normalised keyframe lies in the
range and every value of the range is attained. -/
theorem c8_normalized_keyframes_dense (ks : List ℕ) (hne : ks ≠ []) :
    (∀ v ∈ normalizeKeyframes ks, 0 ≤ v ∧ v < (ks.toFinset.card : ℤ)) ∧
      (∀ i : ℤ, 0 ≤ i → i < (ks.toFinset.card : ℤ) → i ∈ normalizeKeyframes ks) := by
  constructor
  · intro v hv
    rw [normalizeKeyframes_eq_map, List.mem_map] at hv
    obtain ⟨k, hk, rfl⟩ := hv
    have hmem : k ∈ sortedKeyframes ks := mem_sortedKeyframes.mpr hk
    have hidx : (sortedKeyframes ks).indexOf k < (sortedKeyframes ks).length :=
      List.indexOf_lt_length.mpr hmem
    rw [length_sortedKeyframes] at hidx
    unfold jsIndexOf
    rw [if_pos hmem]
    exact ⟨Int.ofNat_nonneg _, by exact_mod_cast hidx⟩
  · intro i hi0 hicard
    have hlen : i.toNat < (sortedKeyframes ks).length := by
      rw [length_sortedKeyframes]
      omega
    have hmem : (sortedKeyframes ks).get ⟨i.toNat, hlen⟩ ∈ sortedKeyframes ks :=
      List.get_mem _ _ _
    have hks : (sortedKeyframes ks).get ⟨i.toNat, hlen⟩ ∈ ks :=
      mem_sortedKeyframes.mp hmem
    have hidx : (sortedKeyframes ks).indexOf ((sortedKeyframes ks).get ⟨i.toNat, hlen⟩) =
        i.toNat :=
      List.get_indexOf (nodup_sortedKeyframes ks) ⟨i.toNat, hlen⟩
    rw [normalizeKeyframes_eq_map, List.mem_map]
    refine ⟨(sortedKeyframes ks).get ⟨i.toNat, hlen⟩, hks, ?_⟩
    unfold jsIndexOf
    rw [if_pos hmem, hidx]
    omega

/-- Concrete instance of claim C8 at the specification's example flow. -/
theorem c8_normalized_keyframes_dense_witness :
    ([10, 5, 5, 20] : List ℕ) ≠ [] ∧ (0 : ℤ) ∈ normalizeKeyframes [10, 5, 5, 20] :=
  ⟨by decide,
    (c8_normalized_keyframes_dense [10, 5, 5, 20] (by decide)).2 0 (by decide) (by decide)⟩

/-! ## Loader: subsystem sizes and ports (`computeSizes`)

`computeSizes` counts, for a subsystem, the links one of whose endpoint paths
starts with the subsystem's canonical id, and derives the box size and the
port coordinates from that count and the subsystem's position. -/

/-- A link of the specification: two dotted endpoint paths. -/
structure Link where
  a : String
  b : String
deriving DecidableEq

/-- JavaScript `String.prototype.startsWith`, over the character lists (Lean's
own `String.startsWith` does not reduce inside the kernel). -/
def strStartsWith (s pre : String) : Bool :=
  List.isPrefixOf pre.data s.data

/-- The link count of `computeSizes`: the number of links whose endpoint `a`
or `b` starts with the subsystem's canonical id. -/
def linksCount (links : List Link) (canonicalId : String) : ℕ :=
  (links.filter
    (fun link => strStartsWith link.a canonicalId || strStartsWith link.b canonicalId)).length

/-- The computed box size. -/
structure SystemSize where
  width : ℤ
  height : ℤ
deriving DecidableEq

/-- The port loop of the `linksCount > 4` branch:
`for (x = position.x + 1; x < position.x + width; x += 2)` pushes a top-edge
port and a bottom-edge port per iteration.  The first argument is fuel; the
loop runs fewer than `width` iterations. -/
def topBottomPorts (pos : ℤ × ℤ) (width height : ℤ) : ℕ → ℤ → List (ℤ × ℤ)
  | 0, _ => []
  | fuel + 1, x =>
    if x < pos.1 + width then
      (x, pos.2 - 1) :: (x, pos.2 + height) :: topBottomPorts pos width height fuel (x + 2)
    else []

/-- `computeSizes` for one subsystem, given its position and link count:
the size, and the ports in the order the source pushes them. -/
def computeSizePorts (pos : ℤ × ℤ) (lc : ℕ) : SystemSize × List (ℤ × ℤ) :=
  if lc ≤ 4 then
    (⟨3, 3⟩,
      [(pos.1 + 1, pos.2 - 1),
        (pos.1 + 3, pos.2 + 1),
        (pos.1 + 1, pos.2 + 3),
        (pos.1 - 1, pos.2 + 1)])
  else
    let width : ℤ := 3 + ((lc - 4) % 2 : ℕ)
    (⟨width, 3⟩,
      [(pos.1 - 1, pos.2 + 1), (pos.1 + width, pos.2 + 1)] ++
        topBottomPorts pos width 3 (width.toNat + 1) (pos.1 + 1))

theorem mem_topBottomPorts (pos : ℤ × ℤ) (width height : ℤ) :
    ∀ (fuel : ℕ) (x : ℤ), pos.1 + width - x ≤ 2 * fuel →
      ∀ p, p ∈ topBottomPorts pos width height fuel x ↔
        ∃ k : ℕ, x + 2 * k < pos.1 + width ∧
          (p = (x + 2 * k, pos.2 - 1) ∨ p = (x + 2 * k, pos.2 + height)) := by
  intro fuel
  induction fuel with
  | zero =>
    intro x hx p
    simp only [topBottomPorts, List.not_mem_nil, false_iff]
    rintro ⟨k, hk, _⟩
    omega
  | succ fuel ih =>
    intro x hx p
    unfold topBottomPorts
    by_cases hlt : x < pos.1 + width
    · rw [if_pos hlt]
      simp only [List.mem_cons, ih (x + 2) (by omega) p]
      constructor
      · rintro (rfl | rfl | ⟨k, hk, hp⟩)
        · exact ⟨0, by omega, Or.inl (by norm_num)⟩
        · exact ⟨0, by omega, Or.inr (by norm_num)⟩
        · refine ⟨k + 1, by push_cast; omega, ?_⟩
          rcases hp with rfl | rfl
          · exact Or.inl (by push_cast; ring_nf)
          · exact Or.inr (by push_cast; ring_nf)
      · rintro ⟨k, hk, hp⟩
        match k with
        | 0 =>
          rcases hp with rfl | rfl
          · exact Or.inl (by norm_num)
          · exact Or.inr (Or.inl (by norm_num))
        | k + 1 =>
          refine Or.inr (Or.inr ⟨k, by push_cast at hk ⊢; omega, ?_⟩)
          rcases hp with rfl | rfl
          · exact Or.inl (by push_cast; ring_nf)
          · exact Or.inr (by push_cast; ring_nf)
    · rw [if_neg hlt]
      simp only [List.not_mem_nil, false_iff]
      rintro ⟨k, hk, _⟩
      omega

theorem topBottomPorts_length (pos : ℤ × ℤ) (width height : ℤ) :
    ∀ (fuel : ℕ) (x : ℤ), pos.1 + width - x ≤ 2 * fuel →
      ((topBottomPorts pos width height fuel x).length : ℤ) =
        2 * max 0 ((pos.1 + width - x + 1) / 2) := by
  intro fuel
  induction fuel with
  | zero =>
    intro x hx
    simp only [topBottomPorts, List.length_nil]
    omega
  | succ fuel ih =>
    intro x hx
    unfold topBottomPorts
    by_cases hlt : x < pos.1 + width
    · rw [if_pos hlt]
      simp only [List.length_cons]
      have := ih (x + 2) (by omega)
      push_cast at this ⊢
      omega
    · rw [if_neg hlt]
      simp only [List.length_nil]
      omega

theorem computeSizePorts_spec (pos : ℤ × ℤ) (lc : ℕ) (hlc : 4 < lc) :
    (computeSizePorts pos lc).1 = ⟨3 + ((lc - 4) % 2 : ℕ), 3⟩ ∧
      (computeSizePorts pos lc).2.take 2 =
        [(pos.1 - 1, pos.2 + 1), (pos.1 + (3 + ((lc - 4) % 2 : ℕ) : ℤ), pos.2 + 1)] ∧
      (∀ p, p ∈ (computeSizePorts pos lc).2.drop 2 ↔
        ∃ o : ℤ, o % 2 = 1 ∧ 0 < o ∧ o < 3 + ((lc - 4) % 2 : ℕ) ∧
          (p = (pos.1 + o, pos.2 - 1) ∨ p = (pos.1 + o, pos.2 + 3))) ∧
      (lc = 5 →
        (computeSizePorts pos lc).1 = ⟨4, 3⟩ ∧
          ((computeSizePorts pos lc).2.drop 2).length = 4) := by
  have hgt : ¬ lc ≤ 4 := by omega
  have hports : computeSizePorts pos lc =
      (⟨3 + ((lc - 4) % 2 : ℕ), 3⟩,
        [(pos.1 - 1, pos.2 + 1), (pos.1 + (3 + ((lc - 4) % 2 : ℕ) : ℤ), pos.2 + 1)] ++
          topBottomPorts pos (3 + ((lc - 4) % 2 : ℕ)) 3
            ((3 + ((lc - 4) % 2 : ℕ) : ℤ).toNat + 1) (pos.1 + 1)) := by
    unfold computeSizePorts
    rw [if_neg hgt]
  refine ⟨by rw [hports], by rw [hports]; rfl, ?_, ?_⟩
  · intro p
    rw [hports]
    show p ∈ topBottomPorts pos (3 + ((lc - 4) % 2 : ℕ)) 3
        ((3 + ((lc - 4) % 2 : ℕ) : ℤ).toNat + 1) (pos.1 + 1) ↔ _
    rw [mem_topBottomPorts pos _ 3 _ (pos.1 + 1) (by omega) p]
    constructor
    · rintro ⟨k, hk, hp⟩
      refine ⟨1 + 2 * k, by omega, by omega, by omega, ?_⟩
      rcases hp with rfl | rfl
      · exact Or.inl (by ring_nf)
      · exact Or.inr (by ring_nf)
    · rintro ⟨o, hodd, hpos, hlt, hp⟩
      obtain ⟨k, rfl⟩ : ∃ k : ℕ, o = 1 + 2 * k := by
        refine ⟨((o - 1) / 2).toNat, ?_⟩
        omega
      refine ⟨k, by omega, ?_⟩
      rcases hp with rfl | rfl
      · exact Or.inl (by ring_nf)
      · exact Or.inr (by ring_nf)
  · intro h5
    subst h5
    rw [hports]
    norm_num
    have hlen := topBottomPorts_length pos 4 3 (Int.toNat 4 + 1) (pos.1 + 1) (by omega)
    omega

/-- Claim C6: with more than 4 links, the computed size is
`(3 + (linkCount − 4) mod 2, 3)`, the first two ports sit on the left and
right edges at `y`-offset `1`, and the remaining ports are exactly a
top-edge/bottom-edge pair for every odd column strictly between the box
edges; in particular 5 links give size `(4, 3)` and 4 horizontal-edge
ports. -/
theorem c6_size_and_ports_over_four_links (links : List Link) (cid : String)
    (pos : ℤ × ℤ) (hlc : 4 < linksCount links cid) :
    (computeSizePorts pos (linksCount links cid)).1 =
        ⟨3 + ((linksCount links cid - 4) % 2 : ℕ), 3⟩ ∧
      (computeSizePorts pos (linksCount links cid)).2.take 2 =
        [(pos.1 - 1, pos.2 + 1),
          (pos.1 + (3 + ((linksCount links cid - 4) % 2 : ℕ) : ℤ), pos.2 + 1)] ∧
      (∀ p, p ∈ (computeSizePorts pos (linksCount links cid)).2.drop 2 ↔
        ∃ o : ℤ, o % 2 = 1 ∧ 0 < o ∧ o < 3 + ((linksCount links cid - 4) % 2 : ℕ) ∧
          (p = (pos.1 + o, pos.2 - 1) ∨ p = (pos.1 + o, pos.2 + 3))) ∧
      (linksCount links cid = 5 →
        (computeSizePorts pos (linksCount links cid)).1 = ⟨4, 3⟩ ∧
          ((computeSizePorts pos (linksCount links cid)).2.drop 2).length = 4) :=
  computeSizePorts_spec pos (linksCount links cid) hlc

/-- Concrete instance of claim C6: the system `foo` at `(1, 1)` with five
links, as in the specification's test scenario. -/
theorem c6_size_and_ports_witness :
    4 < linksCount [⟨"foo", "a"⟩, ⟨"foo", "b"⟩, ⟨"foo", "c"⟩, ⟨"foo", "d"⟩, ⟨"foo", "e"⟩] "foo" ∧
      (computeSizePorts (1, 1)
        (linksCount [⟨"foo", "a"⟩, ⟨"foo", "b"⟩, ⟨"foo", "c"⟩, ⟨"foo", "d"⟩, ⟨"foo", "e"⟩]
          "foo")).1 = ⟨4, 3⟩ :=
  ⟨by decide,
    ((c6_size_and_ports_over_four_links
      [⟨"foo", "a"⟩, ⟨"foo", "b"⟩, ⟨"foo", "c"⟩, ⟨"foo", "d"⟩, ⟨"foo", "e"⟩] "foo" (1, 1)
      (by decide)).2.2.2 (by decide)).1⟩

/-! ## Simulator: boundaries and grid positions

`SystemSimulator.computeBoundaries` folds a bounding rectangle over the
world positions and sizes of all recorded grid systems, clamps a degenerate
rectangle, inflates it by `SystemMargin × 5` on each side and derives the
translation from world to grid coordinates.
`SystemSimulator.computeSystemPositions` then adds the translation to every
world position.  `SystemMargin` is a constant of `consts.js`, which is not
part of the snapshot; it is kept as a parameter. -/

/-- The per-system record the simulator keeps: world position and size. -/
structure GridSystemRect where
  worldX : ℤ
  worldY : ℤ
  width : ℤ
  height : ℤ
deriving DecidableEq

/-- JavaScript `Number.MAX_SAFE_INTEGER`, the initial value of the bounding
fold in `computeBoundaries`. -/
def maxSafeInteger : ℤ := 2 ^ 53 - 1

/-- The boundaries record of the simulator. -/
structure Boundaries where
  left : ℤ
  top : ℤ
  right : ℤ
  bottom : ℤ
  width : ℤ
  height : ℤ
  translateX : ℤ
  translateY : ℤ
deriving DecidableEq

/-- `SystemSimulator.computeBoundaries`: bounding rectangle of all world
positions plus sizes, clamped when degenerate, inflated by `margin × 5` on
each side; the translation is `|left|` when `left < 0` and `-left`
otherwise (likewise for `top`). -/
def computeBoundaries (margin : ℤ) (l : List GridSystemRect) : Boundaries :=
  let left0 := l.foldl (fun acc o => if o.worldX < acc then o.worldX else acc) maxSafeInteger
  let right0 := l.foldl (fun acc o => if acc < o.worldX + o.width then o.worldX + o.width else acc) 0
  let top0 := l.foldl (fun acc o => if o.worldY < acc then o.worldY else acc) maxSafeInteger
  let bottom0 := l.foldl (fun acc o => if acc < o.worldY + o.height then o.worldY + o.height else acc) 0
  let left1 := if right0 < left0 then right0 else left0
  let top1 := if bottom0 < top0 then bottom0 else top0
  let left2 := left1 - margin * 5
  let right2 := right0 + margin * 5
  let top2 := top1 - margin * 5
  let bottom2 := bottom0 + margin * 5
  { left := left2, top := top2, right := right2, bottom := bottom2,
    width := right2 - left2, height := bottom2 - top2,
    translateX := if left2 < 0 then |left2| else -left2,
    translateY := if top2 < 0 then |top2| else -top2 }

/-- `SystemSimulator.computeSystemPositions` for one grid system: grid
coordinates `x1, x2, y1, y2` from the world position, the translation and the
size. -/
def computeSystemPosition (b : Boundaries) (o : GridSystemRect) : ℤ × ℤ × ℤ × ℤ :=
  let x1 := o.worldX + b.translateX
  let y1 := o.worldY + b.translateY
  (x1, x1 + o.width - 1, y1, y1 + o.height - 1)

theorem foldl_min_le_init (f : GridSystemRect → ℤ) (l : List GridSystemRect) :
    ∀ init : ℤ,
      l.foldl (fun acc o => if f o < acc then f o else acc) init ≤ init := by
  induction l with
  | nil => intro init; simp
  | cons o l ih =>
    intro init
    refine le_trans (ih _) ?_
    dsimp only
    by_cases h : f o < init
    · rw [if_pos h]; omega
    · rw [if_neg h]

theorem foldl_min_le_mem (f : GridSystemRect → ℤ) (l : List GridSystemRect)
    (o : GridSystemRect) (ho : o ∈ l) :
    ∀ init : ℤ,
      l.foldl (fun acc a => if f a < acc then f a else acc) init ≤ f o := by
  induction l with
  | nil => cases ho
  | cons a l ih =>
    intro init
    rcases List.mem_cons.mp ho with rfl | hmem
    · refine le_trans (foldl_min_le_init f l _) ?_
      dsimp only
      by_cases h : f o < init
      · rw [if_pos h]
      · rw [if_neg h]; omega
    · exact ih hmem _

theorem translate_eq_neg (a : ℤ) : (if a < 0 then |a| else -a) = -a := by
  by_cases h : a < 0
  · rw [if_pos h, abs_of_neg h]
  · rw [if_neg h]

/-- Claim C9: after `compute()`, for every recorded grid system the grid
position `(x1, y1) = world position + translation` is non-negative on both
axes, the boundaries being the bounding rectangle of world positions plus
sizes inflated by `SystemMargin × 5` per side and the translation the
negation of the rectangle's origin. -/
theorem c9_grid_positions_nonneg (margin : ℤ) (l : List GridSystemRect)
    (o : GridSystemRect) (hmargin : 0 ≤ margin) (ho : o ∈ l) :
    0 ≤ (computeSystemPosition (computeBoundaries margin l) o).1 ∧
      0 ≤ (computeSystemPosition (computeBoundaries margin l) o).2.2.1 := by
  have hx := foldl_min_le_mem (fun a => a.worldX) l o ho maxSafeInteger
  have hy := foldl_min_le_mem (fun a => a.worldY) l o ho maxSafeInteger
  unfold computeSystemPosition computeBoundaries
  simp only [translate_eq_neg]
  constructor
  · by_cases hcl :
      l.foldl (fun acc a => if acc < a.worldX + a.width then a.worldX + a.width else acc) 0 <
        l.foldl (fun acc a => if a.worldX < acc then a.worldX else acc) maxSafeInteger
    · rw [if_pos hcl]
      omega
    · rw [if_neg hcl]
      omega
  · by_cases hcl :
      l.foldl (fun acc a => if acc < a.worldY + a.height then a.worldY + a.height else acc) 0 <
        l.foldl (fun acc a => if a.worldY < acc then a.worldY else acc) maxSafeInteger
    · rw [if_pos hcl]
      omega
    · rw [if_neg hcl]
      omega

/-- Concrete instance of claim C9: one system at a negative world position. -/
theorem c9_grid_positions_nonneg_witness :
    (0 : ℤ) ≤ 1 ∧ (⟨-7, -2, 3, 3⟩ : GridSystemRect) ∈ [(⟨-7, -2, 3, 3⟩ : GridSystemRect)] ∧
      0 ≤ (computeSystemPosition (computeBoundaries 1 [⟨-7, -2, 3, 3⟩]) ⟨-7, -2, 3, 3⟩).1 :=
  ⟨by decide, by decide,
    (c9_grid_positions_nonneg 1 [⟨-7, -2, 3, 3⟩] ⟨-7, -2, 3, 3⟩ (by decide) (by decide)).1⟩

/-! ## Simulator: `getObjectsAt`

`getObjectsAt` translates a world coordinate into grid coordinates and reads
the object stack with JavaScript optional chaining:
`this.grid[gridX]?.[gridY] ?? []`. -/

/-- The kinds of objects a grid cell stack can hold. -/
inductive SimulatorObjectType
  | system
  | port
  | link
  | systemMargin
  | systemTitle
  | systemTitlePadding
deriving DecidableEq

/-- A simulator object as far as the stack lookup is concerned: its kind
(the kind-specific payloads play no role in `getObjectsAt`). -/
structure SimulatorObject where
  type : SimulatorObjectType
deriving DecidableEq

/-- JavaScript array indexing `arr[i]`: `undefined` (here `none`) for a
negative index or one at or past the length. -/
def jsArrayGet {α : Type} (l : List α) (i : ℤ) : Option α :=
  if h : 0 ≤ i ∧ i < l.length then some (l.get ⟨i.toNat, by omega⟩) else none

/-- `SystemSimulator.getObjectsAt`: translate the world coordinate and read
the cell stack, `[]` when either index misses (`?.` and `?? []`). -/
def getObjectsAt (grid : List (List (List SimulatorObject)))
    (translateX translateY worldX worldY : ℤ) : List SimulatorObject :=
  let gridX := worldX + translateX
  let gridY := worldY + translateY
  ((jsArrayGet grid gridX).bind (fun column => jsArrayGet column gridY)).getD []

/-- Claim C10: `getObjectsAt` is total at the public interface: for every
world coordinate it returns a list — the cell stack when the translated
coordinates hit the grid, and the empty list when either translated
coordinate falls outside — and never fails. -/
theorem c10_getObjectsAt_total (grid : List (List (List SimulatorObject)))
    (translateX translateY worldX worldY : ℤ) :
    (jsArrayGet grid (worldX + translateX) = none →
      getObjectsAt grid translateX translateY worldX worldY = []) ∧
    (∀ column, jsArrayGet grid (worldX + translateX) = some column →
      jsArrayGet column (worldY + translateY) = none →
      getObjectsAt grid translateX translateY worldX worldY = []) ∧
    (∀ column, jsArrayGet grid (worldX + translateX) = some column →
      ∀ cell, jsArrayGet column (worldY + translateY) = some cell →
        getObjectsAt grid translateX translateY worldX worldY = cell) := by
  have hdef : getObjectsAt grid translateX translateY worldX worldY =
      ((jsArrayGet grid (worldX + translateX)).bind
        (fun column => jsArrayGet column (worldY + translateY))).getD [] := rfl
  refine ⟨?_, ?_, ?_⟩
  · intro h
    rw [hdef, h]
    rfl
  · intro column hcol h
    rw [hdef, hcol]
    simp [h]
  · intro column hcol cell hcell
    rw [hdef, hcol]
    simp [hcell]

/-- Concrete instance of claim C10: a world coordinate whose translated grid
coordinate is negative returns the empty list. -/
theorem c10_getObjectsAt_total_witness :
    jsArrayGet ([[[⟨SimulatorObjectType.port⟩]]] : List (List (List SimulatorObject)))
        ((-3 : ℤ) + 1) = none ∧
      getObjectsAt [[[⟨SimulatorObjectType.port⟩]]] 1 0 (-3) 0 = [] :=
  ⟨by decide, (c10_getObjectsAt_total [[[⟨SimulatorObjectType.port⟩]]] 1 0 (-3) 0).1 (by decide)⟩

/-! ## Path finder: weighted A* (`PathFinder.findPath`, `Grid`)

The grid holds one node per cell with a weight (`Infinity`, modelled `none`,
means impassable), and per-search state: `g`, `h`, `f` scores, a parent
pointer and a visit state.  `findPath` runs A* from a start node to an end
node; `drawLinks` always calls `Grid.reset()` immediately before `findPath`,
so the embedding gives `findPath` a freshly reset search state.

The open list is the `heap` package's min-heap on `f`; updating a node's `f`
re-establishes the heap order (`updateItem`).  The embedding keeps the open
list as the list of open coordinates and pops a coordinate whose current `f`
is minimal, which is the behaviour of the heap up to the order of ties.

The source computes the step cost as `1` for a cardinal step and `Math.SQRT2`
otherwise; `Grid.getNeighbors` returns only the four cardinal neighbours, so
the `Math.SQRT2` branch is dead code.  Since `√2 ∉ ℚ`, the embedding keeps
the branch but takes its value as the parameter `sqrtTwo`; every theorem
holds for all values of the parameter.

The loop of `findPath` needs no fuel in the source: a node enters the open
list at most once (a popped node is `Visited` and never relaxed again, and a
node already `WillVisit` is updated in place), so the loop pops at most
`width × height` nodes.  The embedding runs the loop on `width × height + 1`
units of fuel and returns the empty path if the fuel ever runs out. -/

/-- A cell coordinate of the path-finder grid. -/
abbrev Coord := ℤ × ℤ

/-- The search options of `PathFinder`: heuristic weight and turn penalty
(both default `1` in the source), plus the value the embedding gives to the
dead `Math.SQRT2` branch of the step cost. -/
structure FinderParams where
  weight : ℚ
  turnPenalty : ℚ
  sqrtTwo : ℚ
deriving DecidableEq

/-- The per-node visit state. -/
inductive NodeState
  | notVisited
  | willVisit
  | visited
deriving DecidableEq

/-- The path-finder grid: dimensions and the current weight of every node
(`none` models `Infinity`). -/
structure PFGrid where
  width : ℕ
  height : ℕ
  weight : Coord → Option ℚ

/-- `Grid.isInside`. -/
def isInside (g : PFGrid) (c : Coord) : Bool :=
  decide (0 ≤ c.1) && decide (c.1 < g.width) && decide (0 ≤ c.2) && decide (c.2 < g.height)

/-- `Grid.isWalkableAt`: inside the grid and finite weight. -/
def isWalkableAt (g : PFGrid) (c : Coord) : Bool :=
  isInside g c && (g.weight c).isSome

/-- `Grid.getNeighbors`: the walkable cardinal neighbours, in the source's
push order (up, right, down, left). -/
def getNeighbors (g : PFGrid) (c : Coord) : List Coord :=
  [(c.1, c.2 - 1), (c.1 + 1, c.2), (c.1, c.2 + 1), (c.1 - 1, c.2)].filter
    (fun nb => isWalkableAt g nb)

/-- The weight of a walkable node; `getNeighbors` only returns nodes whose
weight is finite, so the `none` fallback is never read. -/
def weightAt (g : PFGrid) (c : Coord) : ℚ :=
  (g.weight c).getD 0

/-- Whether the step `node → nb` changes direction relative to the step
`parent → node` that reached `node` (`hasTurned` in `findPath`); never true
when `node` has no parent. -/
def stepTurned (node : Coord) (par : Option Coord) (nb : Coord) : Bool :=
  match par with
  | none => false
  | some p =>
    decide (node.1 - p.1 ≠ nb.1 - node.1) || decide (node.2 - p.2 ≠ nb.2 - node.2)

/-- The tentative `g` score of `findPath`'s relaxation:
`nextG = node.g + (cardinal ? 1 : SQRT2)`, then `nextG *= neighbor.weight`,
then the turn penalty is added when the direction changed. -/
def tentativeG (P : FinderParams) (node : Coord) (gNode : ℚ) (par : Option Coord)
    (nb : Coord) (w : ℚ) : ℚ :=
  let base := gNode + (if nb.1 - node.1 = 0 ∨ nb.2 - node.2 = 0 then 1 else P.sqrtTwo)
  let scaled := base * w
  if stepTurned node par nb then scaled + P.turnPenalty else scaled

/-- The per-search state: scores, parent pointers, visit states and the open
list. -/
structure SearchState where
  g : Coord → ℚ
  h : Coord → ℚ
  f : Coord → ℚ
  par : Coord → Option Coord
  state : Coord → NodeState
  openList : List Coord

/-- Pointwise update of a per-node map. -/
def fupd {α : Type} (m : Coord → α) (c : Coord) (v : α) : Coord → α :=
  fun x => if x = c then v else m x

/-- One relaxation of `findPath`'s neighbour loop: skip a visited neighbour;
otherwise compute the tentative `g` and, when the neighbour is new or the
tentative `g` is smaller, store `g`, `h` (computed once), `f` and the parent,
and push the neighbour if it was not yet in the open list. -/
def relaxNeighbor (P : FinderParams) (grid : PFGrid) (endC node : Coord)
    (s : SearchState) (nb : Coord) : SearchState :=
  if s.state nb = NodeState.visited then s
  else
    let nextG := tentativeG P node (s.g node) (s.par node) nb (weightAt grid nb)
    if s.state nb ≠ NodeState.willVisit ∨ nextG < s.g nb then
      let hNew := if s.h nb = 0 then
          P.weight * ((|nb.1 - endC.1| + |nb.2 - endC.2| : ℤ) : ℚ)
        else s.h nb
      let s1 : SearchState :=
        { g := fupd s.g nb nextG, h := fupd s.h nb hNew, f := fupd s.f nb (nextG + hNew),
          par := fupd s.par nb (some node), state := s.state, openList := s.openList }
      if s.state nb ≠ NodeState.willVisit then
        { s1 with
            state := fupd s1.state nb NodeState.willVisit
            openList := s1.openList ++ [nb] }
      else s1
    else s

/-- The whole neighbour loop of one `findPath` iteration. -/
def relaxNeighbors (P : FinderParams) (grid : PFGrid) (endC node : Coord)
    (s : SearchState) : SearchState :=
  (getNeighbors grid node).foldl (relaxNeighbor P grid endC node) s

/-- Pop an element whose `f` is minimal (the min-heap pop, up to tie order);
`none` on the empty list. -/
def popMin (f : Coord → ℚ) : List Coord → Option (Coord × List Coord)
  | [] => none
  | c :: rest =>
    match popMin f rest with
    | none => some (c, rest)
    | some (m, rest2) => if f c ≤ f m then some (c, rest) else some (m, c :: rest2)

/-- Path reconstruction: from the end node, follow the parent pointers and
collect the nodes (`findPath` then reverses the collected list).  The fuel
bounds the walk; parent chains are acyclic, so `width × height + 2` units
always suffice. -/
def buildPath (par : Coord → Option Coord) : ℕ → Coord → List Coord
  | 0, c => [c]
  | fuel + 1, c =>
    match par c with
    | none => [c]
    | some p => c :: buildPath par fuel p

/-- The main loop of `findPath`: pop the open node with minimal `f`, mark it
visited, reconstruct and return the path if it is the end node, otherwise
relax its neighbours and continue.  An empty open list means no path: return
`[]`. -/
def astarLoop (P : FinderParams) (grid : PFGrid) (endC : Coord) :
    ℕ → SearchState → List Coord
  | 0, _ => []
  | fuel + 1, s =>
    match popMin s.f s.openList with
    | none => []
    | some (node, rest) =>
      let s1 : SearchState :=
        { s with openList := rest, state := fupd s.state node NodeState.visited }
      if node = endC then
        (buildPath s1.par (grid.width * grid.height + 2) endC).reverse
      else
        astarLoop P grid endC fuel (relaxNeighbors P grid endC node s1)

/-- The freshly reset search state with the start node opened
(`startNode.f = 0; startNode.g = 0; startNode.state = WillVisit;
openList.push(startNode)` on a grid whose `reset()` just ran). -/
def startState (startC : Coord) : SearchState :=
  { g := fun _ => 0, h := fun _ => 0, f := fun _ => 0,
    par := fun _ => none,
    state := fun c => if c = startC then NodeState.willVisit else NodeState.notVisited,
    openList := [startC] }

/-- `PathFinder.findPath` on a freshly reset grid. -/
def findPath (P : FinderParams) (grid : PFGrid) (startC endC : Coord) : List Coord :=
  astarLoop P grid endC (grid.width * grid.height + 1) (startState startC)

/-- Cardinal adjacency: the two cells differ by exactly `1` in exactly one
coordinate. -/
def cardinalAdjacent (a b : Coord) : Prop :=
  (a.1 = b.1 ∧ (a.2 - b.2).natAbs = 1) ∨ (a.2 = b.2 ∧ (a.1 - b.1).natAbs = 1)

theorem mem_getNeighbors {g : PFGrid} {c nb : Coord} (h : nb ∈ getNeighbors g c) :
    (nb = (c.1, c.2 - 1) ∨ nb = (c.1 + 1, c.2) ∨ nb = (c.1, c.2 + 1) ∨ nb = (c.1 - 1, c.2)) ∧
      isWalkableAt g nb = true := by
  unfold getNeighbors at h
  rw [List.mem_filter] at h
  refine ⟨?_, h.2⟩
  have := h.1
  simp only [List.mem_cons, List.not_mem_nil, or_false] at this
  tauto

theorem mem_getNeighbors_cardinal {g : PFGrid} {c nb : Coord}
    (h : nb ∈ getNeighbors g c) : nb.1 - c.1 = 0 ∨ nb.2 - c.2 = 0 := by
  rcases (mem_getNeighbors h).1 with rfl | rfl | rfl | rfl
  · exact Or.inl (by ring)
  · exact Or.inr (by ring)
  · exact Or.inl (by ring)
  · exact Or.inr (by ring)

theorem mem_getNeighbors_adjacent {g : PFGrid} {c nb : Coord}
    (h : nb ∈ getNeighbors g c) : cardinalAdjacent c nb := by
  rcases (mem_getNeighbors h).1 with rfl | rfl | rfl | rfl
  · exact Or.inl ⟨rfl, by simp⟩
  · exact Or.inr ⟨rfl, by simp⟩
  · exact Or.inl ⟨rfl, by simp⟩
  · exact Or.inr ⟨rfl, by simp⟩

theorem relaxNeighbor_g_eq (P : FinderParams) (grid : PFGrid) (endC node nb : Coord)
    (s : SearchState) (hnv : s.state nb ≠ NodeState.visited)
    (hupd : s.state nb ≠ NodeState.willVisit ∨
      tentativeG P node (s.g node) (s.par node) nb (weightAt grid nb) < s.g nb) :
    (relaxNeighbor P grid endC node s nb).g nb =
      tentativeG P node (s.g node) (s.par node) nb (weightAt grid nb) := by
  unfold relaxNeighbor
  rw [if_neg hnv]
  dsimp only
  rw [if_pos hupd]
  by_cases hwv : s.state nb ≠ NodeState.willVisit
  · rw [if_pos hwv]
    simp [fupd]
  · rw [if_neg hwv]
    simp [fupd]

theorem tentativeG_cardinal (P : FinderParams) (node : Coord) (gNode : ℚ)
    (par : Option Coord) (nb : Coord) (w : ℚ)
    (hcard : nb.1 - node.1 = 0 ∨ nb.2 - node.2 = 0) :
    tentativeG P node gNode par nb w =
      (gNode + 1) * w + (if stepTurned node par nb then P.turnPenalty else 0) := by
  unfold tentativeG
  rw [if_pos hcard]
  by_cases ht : stepTurned node par nb = true
  · rw [if_pos ht, if_pos ht]
  · rw [if_neg ht, if_neg ht]
    ring

/-- Claim C1, counterexample: the claim says the tentative `g` of a cardinal
relaxation is `node.g + 1 × weight` (plus the turn penalty on a turn).  At
`node.g = 1` and neighbour weight `2` on a straight continuation from the
start (no predecessor, so no penalty either way), the source computes
`(1 + 1) * 2 = 4`, not `1 + 1 * 2 = 3`: the multiplication by the weight is
applied to the whole accumulated score, not to the increment. -/
theorem c1_relax_gscore_counterexample :
    tentativeG ⟨1, 1, 0⟩ (1, 0) 1 none (2, 0) 2 = 4 ∧
      (1 : ℚ) + 1 * 2 = 3 ∧
      tentativeG ⟨1, 1, 0⟩ (1, 0) 1 none (2, 0) 2 ≠ (1 : ℚ) + 1 * 2 :=
  ⟨by norm_num [tentativeG, stepTurned], by norm_num,
    by norm_num [tentativeG, stepTurned]⟩

/-- Claim C1 as amended: in `findPath`, relaxing a neighbour (every neighbour
is cardinal) writes the tentative g-score
`(node.g + 1) × neighbour.weight`, plus `turnPenalty` exactly when the step
direction to the neighbour differs from the direction by which the current
node was reached; when the current node has no predecessor no penalty is
added. -/
theorem c1_relax_gscore (P : FinderParams) (grid : PFGrid) (endC node nb : Coord)
    (s : SearchState) (hnb : nb ∈ getNeighbors grid node)
    (hnv : s.state nb ≠ NodeState.visited)
    (hupd : s.state nb ≠ NodeState.willVisit ∨
      tentativeG P node (s.g node) (s.par node) nb (weightAt grid nb) < s.g nb) :
    (relaxNeighbor P grid endC node s nb).g nb =
        (s.g node + 1) * weightAt grid nb +
          (if stepTurned node (s.par node) nb then P.turnPenalty else 0) ∧
      (s.par node = none →
        (relaxNeighbor P grid endC node s nb).g nb = (s.g node + 1) * weightAt grid nb) := by
  have hg := relaxNeighbor_g_eq P grid endC node nb s hnv hupd
  have hcard := mem_getNeighbors_cardinal hnb
  have ht := tentativeG_cardinal P node (s.g node) (s.par node) nb (weightAt grid nb) hcard
  constructor
  · rw [hg, ht]
  · intro hpar
    rw [hg, ht, hpar]
    simp [stepTurned]

/-- Concrete instance of the amended claim C1: the first relaxation of a
fresh search writes `(0 + 1) × 1` with no turn penalty. -/
theorem c1_relax_gscore_witness :
    ((1 : ℤ), (0 : ℤ)) ∈ getNeighbors ⟨3, 1, fun _ => some 1⟩ (0, 0) ∧
      (relaxNeighbor ⟨1, 1, 0⟩ ⟨3, 1, fun _ => some 1⟩ (2, 0) (0, 0)
          (startState (0, 0)) (1, 0)).g (1, 0) =
        ((startState (0, 0)).g (0, 0) + 1) * weightAt ⟨3, 1, fun _ => some 1⟩ (1, 0) :=
  ⟨by decide,
    (c1_relax_gscore ⟨1, 1, 0⟩ ⟨3, 1, fun _ => some 1⟩ (2, 0) (0, 0) (1, 0)
        (startState (0, 0)) (by decide) (by decide) (Or.inl (by decide))).2 rfl⟩

/-! ### Soundness of the search loop

Any non-empty path `findPath` returns is reconstructed from the parent
pointers of the end node.  The development shows the parent structure is,
throughout the loop, a forest of cardinal steps rooted at the start node,
so every returned path is a 4-connected walkable path from start to end. -/

theorem cardinalAdjacent_symm {a b : Coord} (h : cardinalAdjacent a b) :
    cardinalAdjacent b a := by
  unfold cardinalAdjacent at h ⊢
  omega

/-- A parent chain: the head is `c`, every element's parent is the next
element, and the chain ends at the parentless start node. -/
inductive ParentChain (par : Coord → Option Coord) (startC : Coord) : Coord → List Coord → Prop
  | base : par startC = none → ParentChain par startC startC [startC]
  | cons {c p : Coord} {l : List Coord} :
      par c = some p → ParentChain par startC p l → ParentChain par startC c (c :: l)

theorem ParentChain.head_eq {par : Coord → Option Coord} {startC c : Coord}
    {l : List Coord} (h : ParentChain par startC c l) : ∃ t, l = c :: t := by
  cases h with
  | base _ => exact ⟨[], rfl⟩
  | cons _ _ => exact ⟨_, rfl⟩

theorem ParentChain.ne_nil {par : Coord → Option Coord} {startC c : Coord}
    {l : List Coord} (h : ParentChain par startC c l) : l ≠ [] := by
  obtain ⟨t, rfl⟩ := h.head_eq
  exact List.cons_ne_nil _ _

theorem ParentChain.head? {par : Coord → Option Coord} {startC c : Coord}
    {l : List Coord} (h : ParentChain par startC c l) : l.head? = some c := by
  obtain ⟨t, rfl⟩ := h.head_eq
  rfl

theorem ParentChain.getLast?_eq {par : Coord → Option Coord} {startC c : Coord}
    {l : List Coord} (h : ParentChain par startC c l) : l.getLast? = some startC := by
  induction h with
  | base _ => rfl
  | cons hp hsub ih =>
    obtain ⟨t, rfl⟩ := hsub.head_eq
    rw [List.getLast?_cons_cons]
    exact ih

theorem ParentChain.mem_elts {par : Coord → Option Coord} {startC c : Coord}
    {l : List Coord} (h : ParentChain par startC c l) :
    ∀ x ∈ l, x = startC ∨ ∃ p, par x = some p := by
  induction h with
  | base _ =>
    intro x hx
    rw [List.mem_singleton] at hx
    exact Or.inl hx
  | cons hp hsub ih =>
    intro x hx
    rcases List.mem_cons.mp hx with rfl | hx2
    · exact Or.inr ⟨_, hp⟩
    · exact ih x hx2

theorem ParentChain.congr {par par2 : Coord → Option Coord} {startC c : Coord}
    {l : List Coord} (h : ParentChain par startC c l)
    (heq : ∀ x ∈ l, par2 x = par x) : ParentChain par2 startC c l := by
  induction h with
  | base hs =>
    exact ParentChain.base (by rw [heq startC (List.mem_singleton_self _)]; exact hs)
  | cons hp hsub ih =>
    refine ParentChain.cons ?_ (ih (fun x hx => heq x (List.mem_cons_of_mem _ hx)))
    rw [heq _ (List.mem_cons_self _ _)]
    exact hp

theorem ParentChain.chain'_adjacent {par : Coord → Option Coord} {startC c : Coord}
    {l : List Coord} (h : ParentChain par startC c l)
    (hadj : ∀ x p, par x = some p → cardinalAdjacent x p) :
    List.Chain' cardinalAdjacent l := by
  induction h with
  | base _ => simp
  | cons hp hsub ih =>
    obtain ⟨t, rfl⟩ := hsub.head_eq
    exact List.chain'_cons.mpr ⟨hadj _ _ hp, ih⟩

theorem ParentChain.buildPath_eq {par : Coord → Option Coord} {startC c : Coord}
    {l : List Coord} (h : ParentChain par startC c l) :
    ∀ fuel, l.length ≤ fuel + 1 → buildPath par fuel c = l := by
  induction h with
  | base hs =>
    intro fuel _
    match fuel with
    | 0 => rfl
    | fuel + 1 =>
      unfold buildPath
      rw [hs]
  | cons hp hsub ih =>
    intro fuel hlen
    obtain ⟨t, ht⟩ := hsub.head_eq
    match fuel with
    | 0 =>
      exfalso
      rw [ht] at hlen
      simp at hlen
    | fuel + 1 =>
      unfold buildPath
      rw [hp]
      dsimp only
      congr 1
      refine ih fuel ?_
      simp only [List.length_cons] at hlen
      omega

theorem popMin_eq_none {f : Coord → ℚ} {l : List Coord} (h : popMin f l = none) :
    l = [] := by
  cases l with
  | nil => rfl
  | cons c rest =>
    exfalso
    unfold popMin at h
    cases hrec : popMin f rest with
    | none => rw [hrec] at h; cases h
    | some v =>
      obtain ⟨m, rest2⟩ := v
      rw [hrec] at h
      dsimp only at h
      by_cases hle : f c ≤ f m
      · rw [if_pos hle] at h; cases h
      · rw [if_neg hle] at h; cases h

theorem popMin_perm {f : Coord → ℚ} :
    ∀ {l : List Coord} {node : Coord} {rest : List Coord},
      popMin f l = some (node, rest) → l.Perm (node :: rest) := by
  intro l
  induction l with
  | nil => intro node rest h; cases h
  | cons c r ih =>
    intro node rest h
    unfold popMin at h
    cases hrec : popMin f r with
    | none =>
      rw [hrec] at h
      cases h
      rw [popMin_eq_none hrec]
    | some v =>
      obtain ⟨m, rest2⟩ := v
      rw [hrec] at h
      dsimp only at h
      by_cases hle : f c ≤ f m
      · rw [if_pos hle] at h
        cases h
        rfl
      · rw [if_neg hle] at h
        cases h
        exact (List.Perm.cons c (ih hrec)).trans (List.Perm.swap _ _ _)

theorem popMin_mem {f : Coord → ℚ} {l : List Coord} {node : Coord} {rest : List Coord}
    (h : popMin f l = some (node, rest)) : node ∈ l :=
  (popMin_perm h).symm.subset (List.mem_cons_self _ _)

theorem popMin_rest_subset {f : Coord → ℚ} {l : List Coord} {node : Coord}
    {rest : List Coord} (h : popMin f l = some (node, rest)) : ∀ x ∈ rest, x ∈ l :=
  fun x hx => (popMin_perm h).symm.subset (List.mem_cons_of_mem _ hx)

theorem popMin_nodup {f : Coord → ℚ} {l : List Coord} {node : Coord} {rest : List Coord}
    (h : popMin f l = some (node, rest)) (hnd : l.Nodup) :
    node ∉ rest ∧ rest.Nodup := by
  have := ((popMin_perm h).nodup_iff).mp hnd
  rw [List.nodup_cons] at this
  exact this

/-- The loop invariant of `findPath`, holding from the moment the start node
has been popped: the parent map is a forest of cardinal steps into walkable
cells rooted at the start node, parents are always visited, every visited
node has a duplicate-free all-visited parent chain to the start, and the
open list holds exactly `WillVisit` nodes, each with a parent, without
duplicates. -/
structure AStarInv (grid : PFGrid) (startC : Coord) (s : SearchState) : Prop where
  par_start : s.par startC = none
  par_adj : ∀ c p, s.par c = some p → cardinalAdjacent c p
  par_walk : ∀ c p, s.par c = some p → isWalkableAt grid c = true
  par_vis : ∀ c p, s.par c = some p → s.state p = NodeState.visited
  start_vis : s.state startC = NodeState.visited
  visited_chain : ∀ c, s.state c = NodeState.visited →
    ∃ l, ParentChain s.par startC c l ∧ l.Nodup ∧
      ∀ x ∈ l, s.state x = NodeState.visited
  open_wv : ∀ c ∈ s.openList, s.state c = NodeState.willVisit
  open_par : ∀ c ∈ s.openList, ∃ p, s.par c = some p
  open_nodup : s.openList.Nodup

theorem fupd_self {α : Type} (m : Coord → α) (c : Coord) (v : α) : fupd m c v c = v := by
  simp [fupd]

theorem fupd_ne {α : Type} (m : Coord → α) (c : Coord) (v : α) {x : Coord}
    (h : x ≠ c) : fupd m c v x = m x := by
  simp [fupd, h]

theorem pop_inv {grid : PFGrid} {startC : Coord} {s : SearchState}
    (hInv : AStarInv grid startC s) {node : Coord} {rest : List Coord}
    (hpop : popMin s.f s.openList = some (node, rest)) :
    AStarInv grid startC
        { s with openList := rest, state := fupd s.state node NodeState.visited } ∧
      ∃ l, ParentChain s.par startC node l ∧ l.Nodup ∧
        ∀ x ∈ l, fupd s.state node NodeState.visited x = NodeState.visited := by
  have hmem : node ∈ s.openList := popMin_mem hpop
  have hsub : ∀ x ∈ rest, x ∈ s.openList := popMin_rest_subset hpop
  obtain ⟨hnotin, hrestnd⟩ := popMin_nodup hpop hInv.open_nodup
  have hmono : ∀ x, s.state x = NodeState.visited →
      fupd s.state node NodeState.visited x = NodeState.visited := by
    intro x hx
    by_cases hxn : x = node
    · subst hxn; exact fupd_self _ _ _
    · rw [fupd_ne _ _ _ hxn]; exact hx
  have hnodewv : s.state node = NodeState.willVisit := hInv.open_wv node hmem
  have hchain : ∃ l, ParentChain s.par startC node l ∧ l.Nodup ∧
      ∀ x ∈ l, fupd s.state node NodeState.visited x = NodeState.visited := by
    obtain ⟨p, hp⟩ := hInv.open_par node hmem
    have hpvis := hInv.par_vis node p hp
    obtain ⟨lp, hchp, hndp, hvisp⟩ := hInv.visited_chain p hpvis
    have hnodenotin : node ∉ lp := by
      intro hin
      have := hvisp node hin
      rw [hnodewv] at this
      cases this
    refine ⟨node :: lp, ParentChain.cons hp hchp, ?_, ?_⟩
    · exact List.nodup_cons.mpr ⟨hnodenotin, hndp⟩
    · intro x hx
      rcases List.mem_cons.mp hx with rfl | hx2
      · exact fupd_self _ _ _
      · exact hmono x (hvisp x hx2)
  refine ⟨?_, hchain⟩
  refine
    { par_start := hInv.par_start
      par_adj := hInv.par_adj
      par_walk := hInv.par_walk
      par_vis := fun c p hp => hmono _ (hInv.par_vis c p hp)
      start_vis := hmono _ hInv.start_vis
      visited_chain := ?_
      open_wv := ?_
      open_par := fun c hc => hInv.open_par c (hsub c hc)
      open_nodup := hrestnd }
  · intro c hc
    dsimp only at hc ⊢
    by_cases hcn : c = node
    · subst hcn
      exact hchain
    · rw [fupd_ne _ _ _ hcn] at hc
      obtain ⟨l, hch, hnd, hvis⟩ := hInv.visited_chain c hc
      exact ⟨l, hch, hnd, fun x hx => hmono x (hvis x hx)⟩
  · intro c hc
    dsimp only at hc ⊢
    have hcwv := hInv.open_wv c (hsub c hc)
    have hcn : c ≠ node := fun heq => hnotin (heq ▸ hc)
    rw [fupd_ne _ _ _ hcn]
    exact hcwv

theorem relaxNeighbor_inv {P : FinderParams} {grid : PFGrid} {startC endC node : Coord}
    {s : SearchState} (hInv : AStarInv grid startC s)
    (hnodevis : s.state node = NodeState.visited) {nb : Coord}
    (hnb : nb ∈ getNeighbors grid node) :
    AStarInv grid startC (relaxNeighbor P grid endC node s nb) ∧
      (relaxNeighbor P grid endC node s nb).state node = NodeState.visited := by
  have hadj : cardinalAdjacent nb node :=
    cardinalAdjacent_symm (mem_getNeighbors_adjacent hnb)
  have hwalk : isWalkableAt grid nb = true := (mem_getNeighbors hnb).2
  unfold relaxNeighbor
  by_cases hvis : s.state nb = NodeState.visited
  · rw [if_pos hvis]
    exact ⟨hInv, hnodevis⟩
  · rw [if_neg hvis]
    dsimp only
    by_cases hcond : s.state nb ≠ NodeState.willVisit ∨
        tentativeG P node (s.g node) (s.par node) nb (weightAt grid nb) < s.g nb
    · rw [if_pos hcond]
      have hnbnode : nb ≠ node := by
        intro heq
        rw [heq, hnodevis] at hvis
        exact hvis rfl
      have hnbstart : nb ≠ startC := by
        intro heq
        rw [heq, hInv.start_vis] at hvis
        exact hvis rfl
      -- The invariant transfer common to the push and the in-place branch:
      -- only the parent of `nb` changes, plus the given state and open list.
      have hcore :
          ∀ (st2 : Coord → NodeState) (op2 : List Coord),
            (∀ x, s.state x = NodeState.visited → st2 x = NodeState.visited) →
            (∀ x, st2 x = NodeState.visited → s.state x = NodeState.visited) →
            (∀ c2 ∈ op2, st2 c2 = NodeState.willVisit) →
            (∀ c2 ∈ op2, ∃ p2, fupd s.par nb (some node) c2 = some p2) →
            op2.Nodup →
            ∀ (g2 h2 f2 : Coord → ℚ),
            AStarInv grid startC
              ⟨g2, h2, f2, fupd s.par nb (some node), st2, op2⟩ := by
        intro st2 op2 hmono hvisback hwv2 hpar2 hnd2 g2 h2 f2
        have hparcase : ∀ c p, fupd s.par nb (some node) c = some p →
            (c = nb ∧ p = node) ∨ (c ≠ nb ∧ s.par c = some p) := by
          intro c p hcp
          by_cases hcnb : c = nb
          · subst hcnb
            rw [fupd_self] at hcp
            cases hcp
            exact Or.inl ⟨rfl, rfl⟩
          · rw [fupd_ne _ _ _ hcnb] at hcp
            exact Or.inr ⟨hcnb, hcp⟩
        refine
          { par_start := ?_
            par_adj := ?_
            par_walk := ?_
            par_vis := ?_
            start_vis := hmono _ hInv.start_vis
            visited_chain := ?_
            open_wv := hwv2
            open_par := hpar2
            open_nodup := hnd2 }
        · show fupd s.par nb (some node) startC = none
          rw [fupd_ne _ _ _ (Ne.symm hnbstart)]
          exact hInv.par_start
        · intro c p hcp
          dsimp only at hcp
          rcases hparcase c p hcp with ⟨rfl, rfl⟩ | ⟨_, hold⟩
          · exact hadj
          · exact hInv.par_adj c p hold
        · intro c p hcp
          dsimp only at hcp
          rcases hparcase c p hcp with ⟨rfl, rfl⟩ | ⟨_, hold⟩
          · exact hwalk
          · exact hInv.par_walk c p hold
        · intro c p hcp
          dsimp only at hcp ⊢
          rcases hparcase c p hcp with ⟨rfl, rfl⟩ | ⟨_, hold⟩
          · exact hmono _ hnodevis
          · exact hmono _ (hInv.par_vis c p hold)
        · intro c hc
          dsimp only at hc ⊢
          have hcold : s.state c = NodeState.visited := hvisback c hc
          obtain ⟨l, hch, hnd, hvs⟩ := hInv.visited_chain c hcold
          have hnotnb : ∀ x ∈ l, x ≠ nb := by
            intro x hx heq
            have := hvs x hx
            rw [heq] at this
            exact hvis this
          refine ⟨l, hch.congr ?_, hnd, ?_⟩
          · intro x hx
            exact fupd_ne _ _ _ (hnotnb x hx)
          · intro x hx
            exact hmono _ (hvs x hx)
      by_cases hwv : s.state nb ≠ NodeState.willVisit
      · rw [if_pos hwv]
        constructor
        · refine hcore _ _ ?_ ?_ ?_ ?_ ?_ _ _ _
          · intro x hx
            by_cases hxnb : x = nb
            · subst hxnb; exact absurd hx hvis
            · rw [fupd_ne _ _ _ hxnb]; exact hx
          · intro x hx
            by_cases hxnb : x = nb
            · subst hxnb; rw [fupd_self] at hx; cases hx
            · rw [fupd_ne _ _ _ hxnb] at hx; exact hx
          · intro c2 hc2
            rcases List.mem_append.mp hc2 with hold | hnew
            · have := hInv.open_wv c2 hold
              by_cases hcnb : c2 = nb
              · subst hcnb; exact fupd_self _ _ _
              · rw [fupd_ne _ _ _ hcnb]; exact this
            · rw [List.mem_singleton] at hnew
              subst hnew
              exact fupd_self _ _ _
          · intro c2 hc2
            rcases List.mem_append.mp hc2 with hold | hnew
            · obtain ⟨p2, hp2⟩ := hInv.open_par c2 hold
              by_cases hcnb : c2 = nb
              · subst hcnb; exact ⟨node, fupd_self _ _ _⟩
              · exact ⟨p2, by rw [fupd_ne _ _ _ hcnb]; exact hp2⟩
            · rw [List.mem_singleton] at hnew
              subst hnew
              exact ⟨node, fupd_self _ _ _⟩
          · have hnbnotin : nb ∉ s.openList := by
              intro hin
              exact hwv (hInv.open_wv nb hin)
            simp [List.nodup_append, hInv.open_nodup, hnbnotin]
        · show fupd s.state nb NodeState.willVisit node = NodeState.visited
          rw [fupd_ne _ _ _ hnbnode.symm]
          exact hnodevis
      · rw [if_neg hwv]
        push_neg at hwv
        constructor
        · refine hcore _ _ (fun x hx => hx) (fun x hx => hx) hInv.open_wv ?_
            hInv.open_nodup _ _ _
          intro c2 hc2
          obtain ⟨p2, hp2⟩ := hInv.open_par c2 hc2
          by_cases hcnb : c2 = nb
          · subst hcnb; exact ⟨node, fupd_self _ _ _⟩
          · exact ⟨p2, by rw [fupd_ne _ _ _ hcnb]; exact hp2⟩
        · exact hnodevis
    · rw [if_neg hcond]
      exact ⟨hInv, hnodevis⟩

theorem relax_fold_inv {P : FinderParams} {grid : PFGrid} {startC endC node : Coord} :
    ∀ (l : List Coord) (s : SearchState), (∀ nb ∈ l, nb ∈ getNeighbors grid node) →
      AStarInv grid startC s → s.state node = NodeState.visited →
      AStarInv grid startC (l.foldl (relaxNeighbor P grid endC node) s) := by
  intro l
  induction l with
  | nil => intro s _ hInv _; exact hInv
  | cons nb l ih =>
    intro s hmem hInv hvis
    obtain ⟨hInv2, hvis2⟩ :=
      @relaxNeighbor_inv P grid startC endC node s hInv hvis nb
        (hmem nb (List.mem_cons_self _ _))
    exact ih _ (fun x hx => hmem x (List.mem_cons_of_mem _ hx)) hInv2 hvis2

theorem relaxNeighbors_inv {P : FinderParams} {grid : PFGrid} {startC endC node : Coord}
    {s : SearchState} (hInv : AStarInv grid startC s)
    (hvis : s.state node = NodeState.visited) :
    AStarInv grid startC (relaxNeighbors P grid endC node s) :=
  relax_fold_inv (getNeighbors grid node) s (fun _ hx => hx) hInv hvis

/-- A good path: non-empty, from the start cell to the end cell, 4-connected,
and walkable except possibly at the start cell. -/
def GoodPath (grid : PFGrid) (startC endC : Coord) (p : List Coord) : Prop :=
  p ≠ [] ∧ p.head? = some startC ∧ p.getLast? = some endC ∧
    List.Chain' cardinalAdjacent p ∧
    ∀ x ∈ p, x = startC ∨ isWalkableAt grid x = true

/-- The grid cells as a finset, for cardinality bounds. -/
def gridCells (grid : PFGrid) : Finset Coord :=
  ((Finset.range grid.width) ×ˢ (Finset.range grid.height)).image
    (fun q => ((q.1 : ℤ), (q.2 : ℤ)))

theorem mem_gridCells_of_walkable {grid : PFGrid} {c : Coord}
    (h : isWalkableAt grid c = true) : c ∈ gridCells grid := by
  have hin : isInside grid c = true := by
    simp only [isWalkableAt, Bool.and_eq_true] at h
    exact h.1
  unfold isInside at hin
  simp only [Bool.and_eq_true, decide_eq_true_eq] at hin
  obtain ⟨⟨⟨h1, h2⟩, h3⟩, h4⟩ := hin
  unfold gridCells
  rw [Finset.mem_image]
  refine ⟨(c.1.toNat, c.2.toNat), ?_, ?_⟩
  · rw [Finset.mem_product]
    constructor
    · rw [Finset.mem_range]; omega
    · rw [Finset.mem_range]; omega
  · cases c with
    | mk cx cy =>
      simp only
      congr 1 <;> omega

theorem chain_length_le {grid : PFGrid} {startC : Coord} {l : List Coord}
    (hnd : l.Nodup) (helts : ∀ x ∈ l, x = startC ∨ isWalkableAt grid x = true) :
    l.length ≤ grid.width * grid.height + 1 := by
  have hsubset : l.toFinset ⊆ insert startC (gridCells grid) := by
    intro x hx
    rw [List.mem_toFinset] at hx
    rcases helts x hx with rfl | hw
    · exact Finset.mem_insert_self _ _
    · exact Finset.mem_insert_of_mem (mem_gridCells_of_walkable hw)
  have hcard : l.toFinset.card ≤ (insert startC (gridCells grid)).card :=
    Finset.card_le_card hsubset
  have hlen : l.toFinset.card = l.length := List.toFinset_card_of_nodup hnd
  have hcells : (gridCells grid).card ≤ grid.width * grid.height := by
    refine le_trans (Finset.card_image_le) ?_
    rw [Finset.card_product, Finset.card_range, Finset.card_range]
  have hins : (insert startC (gridCells grid)).card ≤ (gridCells grid).card + 1 :=
    Finset.card_insert_le _ _
  omega

theorem goodPath_of_chain {grid : PFGrid} {startC endC : Coord} {s : SearchState}
    (hInv : AStarInv grid startC s) {l : List Coord}
    (hch : ParentChain s.par startC endC l) (hnd : l.Nodup) :
    (buildPath s.par (grid.width * grid.height + 2) endC).reverse = l.reverse ∧
      GoodPath grid startC endC l.reverse := by
  have helts : ∀ x ∈ l, x = startC ∨ isWalkableAt grid x = true := by
    intro x hx
    rcases hch.mem_elts x hx with h | ⟨p, hp⟩
    · exact Or.inl h
    · exact Or.inr (hInv.par_walk x p hp)
  have hlen : l.length ≤ grid.width * grid.height + 1 := chain_length_le hnd helts
  have hbuild : buildPath s.par (grid.width * grid.height + 2) endC = l :=
    hch.buildPath_eq _ (by omega)
  refine ⟨by rw [hbuild], ?_, ?_, ?_, ?_, ?_⟩
  · intro hnil
    exact hch.ne_nil (by simpa using hnil)
  · rw [List.head?_reverse]
    exact hch.getLast?_eq
  · rw [List.getLast?_reverse]
    exact hch.head?
  · rw [List.chain'_reverse]
    refine (hch.chain'_adjacent hInv.par_adj).imp ?_
    intro a b h
    exact cardinalAdjacent_symm h
  · intro x hx
    exact helts x (List.mem_reverse.mp hx)

theorem astarLoop_good {P : FinderParams} {grid : PFGrid} {startC endC : Coord} :
    ∀ (fuel : ℕ) (s : SearchState), AStarInv grid startC s →
      astarLoop P grid endC fuel s = [] ∨
        GoodPath grid startC endC (astarLoop P grid endC fuel s) := by
  intro fuel
  induction fuel with
  | zero => intro s _; exact Or.inl rfl
  | succ fuel ih =>
    intro s hInv
    unfold astarLoop
    cases hpop : popMin s.f s.openList with
    | none => exact Or.inl rfl
    | some v =>
      obtain ⟨node, rest⟩ := v
      dsimp only
      obtain ⟨hInv2, l, hch, hnd, hvis⟩ := pop_inv hInv hpop
      by_cases hend : node = endC
      · rw [if_pos hend]
        subst hend
        obtain ⟨hbuild, hgood⟩ := goodPath_of_chain hInv hch hnd
        rw [hbuild]
        exact Or.inr hgood
      · rw [if_neg hend]
        refine ih _ (relaxNeighbors_inv hInv2 ?_)
        exact hvis node (by
          obtain ⟨t, rfl⟩ := hch.head_eq
          exact List.mem_cons_self _ _)

/-- Any non-empty result of `findPath` is a good path: 4-connected, from the
start to the end cell, through walkable cells (except possibly the start). -/
theorem findPath_spec (P : FinderParams) (grid : PFGrid) (startC endC : Coord) :
    findPath P grid startC endC = [] ∨
      GoodPath grid startC endC (findPath P grid startC endC) := by
  unfold findPath
  have hpop : popMin (startState startC).f (startState startC).openList =
      some (startC, []) := rfl
  unfold astarLoop
  rw [hpop]
  dsimp only
  by_cases hend : startC = endC
  · rw [if_pos hend]
    subst hend
    right
    have hbuild : buildPath (startState startC).par (grid.width * grid.height + 2) startC =
        [startC] := by
      have : (startState startC).par startC = none := rfl
      unfold buildPath
      rw [this]
    rw [hbuild]
    refine ⟨by simp, by simp, by simp, by simp, ?_⟩
    intro x hx
    rw [List.mem_reverse, List.mem_singleton] at hx
    exact Or.inl hx
  · rw [if_neg hend]
    have hInv1 : AStarInv grid startC
        ⟨(startState startC).g, (startState startC).h, (startState startC).f,
          (startState startC).par, fupd (startState startC).state startC NodeState.visited,
          []⟩ := by
      refine
        { par_start := rfl
          par_adj := fun c p hp => by cases hp
          par_walk := fun c p hp => by cases hp
          par_vis := fun c p hp => by cases hp
          start_vis := fupd_self _ _ _
          visited_chain := ?_
          open_wv := fun c hc => by cases hc
          open_par := fun c hc => by cases hc
          open_nodup := List.nodup_nil }
      intro c hc
      dsimp only at hc ⊢
      by_cases hcs : c = startC
      · subst hcs
        refine ⟨[c], ParentChain.base rfl, List.nodup_singleton c, ?_⟩
        intro x hx
        rw [List.mem_singleton] at hx
        subst hx
        exact fupd_self _ _ _
      · exfalso
        rw [fupd_ne _ _ _ hcs] at hc
        unfold startState at hc
        dsimp only at hc
        rw [if_neg hcs] at hc
        cases hc
    exact astarLoop_good _ _ (relaxNeighbors_inv hInv1 (fupd_self _ _ _))

/-- Manhattan distance between two cells. -/
def manhattanDist (a b : Coord) : ℕ :=
  (a.1 - b.1).natAbs + (a.2 - b.2).natAbs

theorem chain'_manhattan :
    ∀ (p : List Coord) (a b : Coord), List.Chain' cardinalAdjacent p →
      p.head? = some a → p.getLast? = some b → manhattanDist a b + 1 ≤ p.length := by
  intro p
  induction p with
  | nil => intro a b _ ha _; cases ha
  | cons x t ih =>
    intro a b hch ha hb
    rw [List.head?_cons, Option.some_inj] at ha
    subst ha
    cases t with
    | nil =>
      rw [List.getLast?_singleton, Option.some_inj] at hb
      subst hb
      unfold manhattanDist
      simp
    | cons y t2 =>
      rw [List.chain'_cons] at hch
      rw [List.getLast?_cons_cons] at hb
      have hstep := ih y b hch.2 rfl hb
      have hadj : cardinalAdjacent x y := hch.1
      have htri : manhattanDist x b ≤ manhattanDist y b + 1 := by
        unfold manhattanDist
        unfold cardinalAdjacent at hadj
        omega
      simp only [List.length_cons] at hstep ⊢
      omega

/-- Claim C3: every non-empty path `findPath` returns is 4-connected (each
pair of consecutive cells differs by exactly `1` in exactly one coordinate),
and for any start and goal cell inside the grid its number of cells is at
least the Manhattan distance between start and goal plus 1. -/
theorem c3_path_four_connected_manhattan (P : FinderParams) (grid : PFGrid)
    (startC endC : Coord) (hs : isInside grid startC = true)
    (he : isInside grid endC = true) (hne : findPath P grid startC endC ≠ []) :
    List.Chain' cardinalAdjacent (findPath P grid startC endC) ∧
      manhattanDist startC endC + 1 ≤ (findPath P grid startC endC).length := by
  rcases findPath_spec P grid startC endC with h | h
  · exact absurd h hne
  · obtain ⟨_, hhead, hlast, hchain, _⟩ := h
    exact ⟨hchain, chain'_manhattan _ _ _ hchain hhead hlast⟩

/-- Concrete instance of claim C3: a straight route on a `4 × 1` grid. -/
theorem c3_path_four_connected_manhattan_witness :
    isInside ⟨4, 1, fun _ => some 1⟩ (0, 0) = true ∧
      isInside ⟨4, 1, fun _ => some 1⟩ (3, 0) = true ∧
      findPath ⟨1, 1, 0⟩ ⟨4, 1, fun _ => some 1⟩ (0, 0) (3, 0) ≠ [] ∧
      manhattanDist (0, 0) (3, 0) + 1 ≤
        (findPath ⟨1, 1, 0⟩ ⟨4, 1, fun _ => some 1⟩ (0, 0) (3, 0)).length :=
  ⟨by decide, by decide, by decide,
    (c3_path_four_connected_manhattan ⟨1, 1, 0⟩ ⟨4, 1, fun _ => some 1⟩ (0, 0) (3, 0)
      (by decide) (by decide) (by decide)).2⟩

/-- Reachability in the sense of the search: a 4-connected path from start to
end whose cells, except possibly the start, are walkable. -/
def ReachableCells (grid : PFGrid) (startC endC : Coord) : Prop :=
  ∃ p, GoodPath grid startC endC p

/-- Claim C4: for in-bounds start and goal cells, when the goal is
unreachable the open set empties and `findPath` returns the empty path; it
is a total function and never fails. -/
theorem c4_unreachable_returns_empty (P : FinderParams) (grid : PFGrid)
    (startC endC : Coord) (hs : isInside grid startC = true)
    (he : isInside grid endC = true)
    (hunreach : ¬ ReachableCells grid startC endC) :
    findPath P grid startC endC = [] := by
  rcases findPath_spec P grid startC endC with h | h
  · exact h
  · exact absurd ⟨_, h⟩ hunreach

theorem not_reachable_of_end_blocked {grid : PFGrid} {startC endC : Coord}
    (hne : endC ≠ startC) (hblocked : isWalkableAt grid endC = false) :
    ¬ ReachableCells grid startC endC := by
  rintro ⟨p, _, _, hlast, _, helts⟩
  have hmem : endC ∈ p := by
    obtain ⟨h, heq⟩ := List.mem_getLast?_eq_getLast hlast
    rw [heq]
    exact List.getLast_mem h
  rcases helts endC hmem with h | h
  · exact hne h
  · rw [hblocked] at h
    cases h

/-- Concrete instance of claim C4: a `2 × 1` grid whose second cell is
impassable. -/
theorem c4_unreachable_returns_empty_witness :
    isInside ⟨2, 1, fun c => if c = (0, 0) then some 1 else none⟩ (0, 0) = true ∧
      isInside ⟨2, 1, fun c => if c = (0, 0) then some 1 else none⟩ (1, 0) = true ∧
      findPath ⟨1, 1, 0⟩ ⟨2, 1, fun c => if c = (0, 0) then some 1 else none⟩ (0, 0) (1, 0) =
        [] :=
  ⟨by decide, by decide,
    c4_unreachable_returns_empty ⟨1, 1, 0⟩ ⟨2, 1, fun c => if c = (0, 0) then some 1 else none⟩
      (0, 0) (1, 0) (by decide) (by decide)
      (not_reachable_of_end_blocked (by decide) (by decide))⟩

/-! ## Simulator: link routing and route recording (`drawLinks`)

For every link, `drawLinks` temporarily blocks the ports of systems outside
the link's allowance set (weight `Infinity`), enumerates all pairs of
available ports of the two endpoint systems sorted by Euclidean distance,
runs `findPath` on the first pair that yields a non-empty route, paints the
route cells with weight `2`, records the route under `routes[a][b]` and its
reverse under `routes[b][a]`, and finally re-opens the blocked ports with
weight `1`.

Two parts of the surrounding simulator state are kept as parameters, which
the recording claim holds for *every* value of: `ports`, the available ports
of a system id (the source filters a system's ports by whether the top of
the grid-cell stack is a `Port`), and `blockedPorts`, the ports of the
systems outside the link's allowance set (the source derives it from the
parent chains of the two endpoints).  The source sorts candidates by
`Math.sqrt` of the squared distance; `sqrt` is strictly monotone, so the
embedding sorts by the squared distance itself. -/

/-- `findPath` with equal start and end: the first pop is the start node,
which is the end node, and the reconstructed path is the single cell. -/
theorem findPath_self (P : FinderParams) (grid : PFGrid) (c : Coord) :
    findPath P grid c c = [c] := by
  unfold findPath astarLoop
  have hpop : popMin (startState c).f (startState c).openList = some (c, []) := rfl
  rw [hpop]
  dsimp only
  rw [if_pos rfl]
  have hpar : (startState c).par c = none := rfl
  unfold buildPath
  rw [hpar]
  rfl

/-- The squared Euclidean distance between two ports; the source compares
`Math.sqrt` of it, and `sqrt` is strictly monotone. -/
def portDistanceSq (pa pb : Coord) : ℤ :=
  (pb.1 - pa.1) ^ 2 + (pb.2 - pa.2) ^ 2

/-- Insertion step of the sort of candidate port pairs by distance. -/
def insertByDistance (x : Coord × Coord) : List (Coord × Coord) → List (Coord × Coord)
  | [] => [x]
  | y :: l =>
    if portDistanceSq x.1 x.2 ≤ portDistanceSq y.1 y.2 then x :: y :: l
    else y :: insertByDistance x l

/-- Sort of candidate port pairs by ascending distance. -/
def sortByDistance (l : List (Coord × Coord)) : List (Coord × Coord) :=
  l.foldr insertByDistance []

/-- The candidate port pairs of a link: all pairs of an available `a`-port
and an available `b`-port, sorted by ascending distance. -/
def candidatePairs (psA psB : List Coord) : List (Coord × Coord) :=
  sortByDistance (psA.flatMap (fun pa => psB.map (fun pb => (pa, pb))))

/-- The candidate loop of `drawLinks`: reset the search state (the embedded
`findPath` starts from a reset state), run `findPath` on each candidate in
order, and keep the first non-empty route. -/
def tryCandidates (P : FinderParams) (grid : PFGrid) :
    List (Coord × Coord) → Option (Coord × Coord × List Coord)
  | [] => none
  | c :: rest =>
    let route := findPath P grid c.1 c.2
    if route.isEmpty then tryCandidates P grid rest else some (c.1, c.2, route)

/-- `routes[x][y] = v` on the nested route table. -/
def setRoute (r : String → String → Option (List Coord)) (x y : String)
    (v : List Coord) : String → String → Option (List Coord) :=
  fun a b => if a = x ∧ b = y then some v else r a b

/-- Write the same weight at a list of cells. -/
def setWeights (w : Coord → Option ℚ) (cells : List Coord) (v : Option ℚ) :
    Coord → Option ℚ :=
  fun c => if c ∈ cells then v else w c

/-- The mutable simulator state `drawLinks` threads: the path-finder grid
weights and the route table. -/
structure DrawState where
  weights : Coord → Option ℚ
  routes : String → String → Option (List Coord)

/-- One iteration of `drawLinks`: block the ports outside the allowance set,
try the candidate port pairs in distance order, on success paint the route
with weight `2` and record it in both directions, then re-open the blocked
ports with weight `1`. -/
def drawLink (P : FinderParams) (W H : ℕ) (ports : String → List Coord)
    (blockedPorts : Link → List Coord) (st : DrawState) (link : Link) : DrawState :=
  let wBlocked := setWeights st.weights (blockedPorts link) none
  let grid : PFGrid := ⟨W, H, wBlocked⟩
  let cands := candidatePairs (ports link.a) (ports link.b)
  let st2 : DrawState :=
    match tryCandidates P grid cands with
    | none => ⟨wBlocked, st.routes⟩
    | some (_, _, route) =>
      ⟨setWeights wBlocked route (some 2),
        setRoute (setRoute st.routes link.a link.b route) link.b link.a route.reverse⟩
  ⟨setWeights st2.weights (blockedPorts link) (some 1), st2.routes⟩

/-- `SystemSimulator.drawLinks`: fold over the links in document order,
starting from the drawn grid's weights and an empty route table. -/
def drawLinks (P : FinderParams) (W H : ℕ) (w0 : Coord → Option ℚ)
    (ports : String → List Coord) (blockedPorts : Link → List Coord)
    (links : List Link) : DrawState :=
  links.foldl (drawLink P W H ports blockedPorts) ⟨w0, fun _ _ => none⟩

/-- Route-table symmetry: every stored route is stored reversed in the
opposite direction. -/
def SymmetricRoutes (r : String → String → Option (List Coord)) : Prop :=
  ∀ a b route, r a b = some route → r b a = some route.reverse

theorem mem_insertByDistance {x y : Coord × Coord} :
    ∀ {l : List (Coord × Coord)}, y ∈ insertByDistance x l ↔ y = x ∨ y ∈ l := by
  intro l
  induction l with
  | nil => simp [insertByDistance]
  | cons z t ih =>
    unfold insertByDistance
    by_cases h : portDistanceSq x.1 x.2 ≤ portDistanceSq z.1 z.2
    · rw [if_pos h]
      simp
    · rw [if_neg h]
      simp only [List.mem_cons, ih]
      tauto

theorem mem_sortByDistance {y : Coord × Coord} :
    ∀ {l : List (Coord × Coord)}, y ∈ sortByDistance l ↔ y ∈ l := by
  intro l
  induction l with
  | nil => simp [sortByDistance]
  | cons z t ih =>
    have : sortByDistance (z :: t) = insertByDistance z (sortByDistance t) := rfl
    rw [this, mem_insertByDistance, List.mem_cons, ih]

theorem sorted_insertByDistance (x : Coord × Coord) :
    ∀ {l : List (Coord × Coord)},
      List.Sorted (fun u v : Coord × Coord =>
        portDistanceSq u.1 u.2 ≤ portDistanceSq v.1 v.2) l →
      List.Sorted (fun u v : Coord × Coord =>
        portDistanceSq u.1 u.2 ≤ portDistanceSq v.1 v.2) (insertByDistance x l) := by
  intro l
  induction l with
  | nil =>
    intro _
    simp [insertByDistance]
  | cons y t ih =>
    intro h
    rw [List.sorted_cons] at h
    unfold insertByDistance
    by_cases hle : portDistanceSq x.1 x.2 ≤ portDistanceSq y.1 y.2
    · rw [if_pos hle, List.sorted_cons]
      refine ⟨?_, List.sorted_cons.mpr h⟩
      intro b hb
      rcases List.mem_cons.mp hb with rfl | hbt
      · exact hle
      · exact le_trans hle (h.1 b hbt)
    · rw [if_neg hle, List.sorted_cons]
      refine ⟨?_, ih h.2⟩
      intro b hb
      rcases mem_insertByDistance.mp hb with rfl | hbt
      · omega
      · exact h.1 b hbt

theorem sorted_sortByDistance :
    ∀ (l : List (Coord × Coord)),
      List.Sorted (fun u v : Coord × Coord =>
        portDistanceSq u.1 u.2 ≤ portDistanceSq v.1 v.2) (sortByDistance l) := by
  intro l
  induction l with
  | nil => simp [sortByDistance]
  | cons z t ih => exact sorted_insertByDistance z ih

theorem portDistanceSq_nonneg (pa pb : Coord) : 0 ≤ portDistanceSq pa pb := by
  unfold portDistanceSq
  positivity

theorem portDistanceSq_eq_zero {pa pb : Coord} (h : portDistanceSq pa pb = 0) :
    pa = pb := by
  unfold portDistanceSq at h
  have h1 : (pb.1 - pa.1) ^ 2 = 0 ∧ (pb.2 - pa.2) ^ 2 = 0 := by
    constructor <;> nlinarith [sq_nonneg (pb.1 - pa.1), sq_nonneg (pb.2 - pa.2)]
  have e1 : pb.1 = pa.1 := by nlinarith [h1.1]
  have e2 : pb.2 = pa.2 := by nlinarith [h1.2]
  cases pa
  cases pb
  simp only at e1 e2
  rw [e1, e2]

theorem tryCandidates_spec {P : FinderParams} {grid : PFGrid} :
    ∀ {l : List (Coord × Coord)} {pa pb : Coord} {route : List Coord},
      tryCandidates P grid l = some (pa, pb, route) →
      (pa, pb) ∈ l ∧ route = findPath P grid pa pb ∧ route ≠ [] := by
  intro l
  induction l with
  | nil => intro pa pb route h; cases h
  | cons c rest ih =>
    intro pa pb route h
    unfold tryCandidates at h
    dsimp only at h
    by_cases hemp : (findPath P grid c.1 c.2).isEmpty = true
    · rw [if_pos hemp] at h
      obtain ⟨hmem, hroute, hne⟩ := ih h
      exact ⟨List.mem_cons_of_mem _ hmem, hroute, hne⟩
    · rw [if_neg hemp] at h
      injection h with heq
      injection heq with h1 h23
      injection h23 with h2 h3
      subst h1
      subst h2
      subst h3
      refine ⟨?_, rfl, ?_⟩
      · cases c
        exact List.mem_cons_self _ _
      · intro hnil
        rw [hnil] at hemp
        exact hemp rfl

theorem tryCandidates_cons_success {P : FinderParams} {grid : PFGrid}
    {c : Coord × Coord} {rest : List (Coord × Coord)}
    (h : findPath P grid c.1 c.2 ≠ []) :
    tryCandidates P grid (c :: rest) = some (c.1, c.2, findPath P grid c.1 c.2) := by
  unfold tryCandidates
  dsimp only
  rw [if_neg (by
    intro hemp
    exact h (List.isEmpty_iff.mp hemp))]

/-- On a self-link the two port lists coincide, so some candidate has
distance `0`; the candidates are sorted, so the first candidate has distance
`0`, i.e. it is a pair `(q, q)`, and `findPath q q = [q]` succeeds at once:
the recorded route of a self-link is a single cell. -/
theorem tryCandidates_self {P : FinderParams} {grid : PFGrid} {ps : List Coord}
    {pa pb : Coord} {route : List Coord}
    (h : tryCandidates P grid (candidatePairs ps ps) = some (pa, pb, route)) :
    route = [pa] ∧ pb = pa := by
  cases hc : candidatePairs ps ps with
  | nil =>
    rw [hc] at h
    cases h
  | cons c0 rest =>
    have hc0mem : c0 ∈ candidatePairs ps ps := by
      rw [hc]
      exact List.mem_cons_self _ _
    have hc0prod : c0 ∈ ps.flatMap (fun qa => ps.map (fun qb => (qa, qb))) :=
      mem_sortByDistance.mp hc0mem
    obtain ⟨qa, hqa, hc0⟩ := List.mem_flatMap.mp hc0prod
    obtain ⟨qb, hqb, hc0eq⟩ := List.mem_map.mp hc0
    have hdiag : (qa, qa) ∈ candidatePairs ps ps := by
      refine mem_sortByDistance.mpr (List.mem_flatMap.mpr ⟨qa, hqa, ?_⟩)
      exact List.mem_map.mpr ⟨qa, hqa, rfl⟩
    have hsorted := sorted_sortByDistance (ps.flatMap (fun qa => ps.map (fun qb => (qa, qb))))
    have hc0min : portDistanceSq c0.1 c0.2 ≤ portDistanceSq qa qa := by
      rw [show sortByDistance (ps.flatMap (fun qa => ps.map (fun qb => (qa, qb)))) =
          candidatePairs ps ps from rfl, hc] at hsorted
      rw [hc] at hdiag
      rcases List.mem_cons.mp hdiag with heq | hmem
      · rw [← heq]
      · exact (List.sorted_cons.mp hsorted).1 _ hmem
    have hzero : portDistanceSq c0.1 c0.2 = 0 := by
      have hself : portDistanceSq qa qa = 0 := by
        unfold portDistanceSq
        ring
      have := portDistanceSq_nonneg c0.1 c0.2
      omega
    have hc0diag : c0.1 = c0.2 := portDistanceSq_eq_zero hzero
    have hfp : findPath P grid c0.1 c0.2 = [c0.1] := by
      rw [← hc0diag]
      exact findPath_self P grid c0.1
    have := @tryCandidates_cons_success P grid c0 rest
      (by rw [hfp]; exact List.cons_ne_nil _ _)
    rw [hc, this, hfp] at h
    injection h with heq
    injection heq with h1 h23
    injection h23 with h2 h3
    subst h1
    subst h2
    constructor
    · rw [← h3]
    · rw [hc0diag]

theorem setRoute_pair_symmetric {r : String → String → Option (List Coord)}
    (hsym : SymmetricRoutes r) {a b : String} {route : List Coord}
    (hself : a = b → route.reverse = route) :
    SymmetricRoutes (setRoute (setRoute r a b route) b a route.reverse) := by
  intro x y rt hxy
  unfold setRoute at hxy ⊢
  by_cases h1 : x = b ∧ y = a
  · obtain ⟨hxb, hya⟩ := h1
    subst x
    subst y
    rw [if_pos ⟨rfl, rfl⟩] at hxy
    injection hxy with hrt
    by_cases hab : a = b
    · have hpal := hself hab
      subst hab
      rw [if_pos ⟨rfl, rfl⟩, ← hrt, List.reverse_reverse, hpal]
    · have hno : ¬ (a = b ∧ b = a) := fun hc => hab hc.1
      rw [if_neg hno, if_pos ⟨rfl, rfl⟩, ← hrt, List.reverse_reverse]
  · rw [if_neg h1] at hxy
    by_cases h2 : x = a ∧ y = b
    · obtain ⟨hxa, hyb⟩ := h2
      subst x
      subst y
      rw [if_pos ⟨rfl, rfl⟩] at hxy
      injection hxy with hrt
      rw [if_pos ⟨rfl, rfl⟩, ← hrt]
    · rw [if_neg h2] at hxy
      have hy1 : ¬ (y = b ∧ x = a) := fun hc => h2 ⟨hc.2, hc.1⟩
      have hy2 : ¬ (y = a ∧ x = b) := fun hc => h1 ⟨hc.2, hc.1⟩
      rw [if_neg hy1, if_neg hy2]
      exact hsym x y rt hxy

theorem drawLink_symmetric (P : FinderParams) (W H : ℕ)
    (ports : String → List Coord) (blockedPorts : Link → List Coord)
    (st : DrawState) (link : Link) (hsym : SymmetricRoutes st.routes) :
    SymmetricRoutes (drawLink P W H ports blockedPorts st link).routes := by
  unfold drawLink
  dsimp only
  cases htry : tryCandidates P ⟨W, H, setWeights st.weights (blockedPorts link) none⟩
      (candidatePairs (ports link.a) (ports link.b)) with
  | none => exact hsym
  | some v =>
    obtain ⟨pa, pb, route⟩ := v
    dsimp only
    refine setRoute_pair_symmetric hsym ?_
    intro hab
    rw [hab] at htry
    obtain ⟨hroute, _⟩ := tryCandidates_self htry
    rw [hroute]
    rfl

/-- Claim C5: after `compute()`, for every pair of system ids with a recorded
route, the stored route `routes[b][a]` is the reverse of the stored route
`routes[a][b]` — for every grid size, initial weights, port assignment,
allowance blocking and link list. -/
theorem c5_routes_symmetric (P : FinderParams) (W H : ℕ) (w0 : Coord → Option ℚ)
    (ports : String → List Coord) (blockedPorts : Link → List Coord)
    (links : List Link) (a b : String) (route : List Coord)
    (h : (drawLinks P W H w0 ports blockedPorts links).routes a b = some route) :
    (drawLinks P W H w0 ports blockedPorts links).routes b a = some route.reverse := by
  suffices hsym : SymmetricRoutes (drawLinks P W H w0 ports blockedPorts links).routes by
    exact hsym a b route h
  unfold drawLinks
  generalize hst : (⟨w0, fun _ _ => none⟩ : DrawState) = st0
  have hsym0 : SymmetricRoutes st0.routes := by
    rw [← hst]
    intro x y rt hxy
    cases hxy
  clear hst h
  induction links generalizing st0 with
  | nil => exact hsym0
  | cons link rest ih =>
    exact ih _ (drawLink_symmetric P W H ports blockedPorts st0 link hsym0)

/-- Concrete instance of claim C5: one link routed across a `4 × 1` grid is
recorded forwards and, reversed, backwards. -/
theorem c5_routes_symmetric_witness :
    (drawLinks ⟨1, 1, 0⟩ 4 1 (fun _ => some 1)
        (fun s => if s = "foo" then [(0, 0)] else [(3, 0)]) (fun _ => [])
        [⟨"foo", "bar"⟩]).routes "foo" "bar" = some [(0, 0), (1, 0), (2, 0), (3, 0)] ∧
      (drawLinks ⟨1, 1, 0⟩ 4 1 (fun _ => some 1)
        (fun s => if s = "foo" then [(0, 0)] else [(3, 0)]) (fun _ => [])
        [⟨"foo", "bar"⟩]).routes "bar" "foo" =
          some [(0, 0), (1, 0), (2, 0), (3, 0)].reverse :=
  ⟨by decide,
    c5_routes_symmetric ⟨1, 1, 0⟩ 4 1 (fun _ => some 1)
      (fun s => if s = "foo" then [(0, 0)] else [(3, 0)]) (fun _ => [])
      [⟨"foo", "bar"⟩] "foo" "bar" [(0, 0), (1, 0), (2, 0), (3, 0)] (by decide)⟩

/-! ## Validator (`validate`)

The file `validations.ts` is not part of the repository snapshot; only its
callers (`load`) and its test suite are.  The validator is therefore
modelled from the specification — §4.4: per link a `self-reference` check, a
`missing`/`inaccurate` check per endpoint, and a `duplicate` check treating
`(a, b)` and `(b, a)` as the same unordered edge, each error carrying a
JSON-pointer path `/links/<i>` or `/links/<i>/a` — and cross-checked
against every scenario of the in-snapshot load test suite. -/

/-- A node of the specification tree: an id and the child subsystems. -/
inductive SpecSystem where
  | mk (id : String) (systems : List SpecSystem)

/-- The id of a specification node. -/
def SpecSystem.id : SpecSystem → String
  | .mk i _ => i

/-- The child subsystems of a specification node. -/
def SpecSystem.systems : SpecSystem → List SpecSystem
  | .mk _ s => s

/-- JavaScript `"…".split(".")` over the character list: maximal runs
between dots; never empty (the empty string splits to `[""]`). -/
def splitOnDotChars : List Char → List (List Char)
  | [] => [[]]
  | c :: cs =>
    if c = '.' then [] :: splitOnDotChars cs
    else
      match splitOnDotChars cs with
      | [] => [[c]]
      | w :: ws => (c :: w) :: ws

/-- `path.split(".")`. -/
def splitOnDot (s : String) : List String :=
  (splitOnDotChars s.data).map (fun w => String.mk w)

/-- `systems.find(ss => ss.id === subsystemId)`. -/
def findSubsystem (l : List SpecSystem) (sid : String) : Option SpecSystem :=
  l.find? (fun s => decide (s.id = sid))

/-- Modelled from the spec: endpoint resolution — split the dotted path and
descend the child lists matching on `id`; any failing segment leaves the
endpoint unresolved (`enhanceLinks` in the loader does the same). -/
def resolveSegments : List String → List SpecSystem → Option SpecSystem
  | [], _ => none
  | [sid], systems => findSubsystem systems sid
  | sid :: rest, systems =>
    match findSubsystem systems sid with
    | none => none
    | some s => resolveSegments rest s.systems

/-- A validation error: a message and a JSON-pointer path. -/
structure ValidationError where
  message : String
  path : String
deriving DecidableEq

/-- Modelled from the spec: the `self-reference` condition, `a == b` after
normalisation.  The load tests pin it down: a link between an endpoint and
one of its own ancestors (`a = "foo.bar"`, `b = "foo"`) is also a
self-reference, so the check is equality or dotted-ancestry of the raw
endpoint paths. -/
def selfReferenceCheck (a b : String) : Bool :=
  decide (a = b) || List.isPrefixOf (b.data ++ ['.']) a.data ||
    List.isPrefixOf (a.data ++ ['.']) b.data

/-- `(a, b)` and `(b, a)` are the same unordered edge. -/
def sameUnorderedEdge (l1 l2 : Link) : Bool :=
  (decide (l1.a = l2.a) && decide (l1.b = l2.b)) ||
    (decide (l1.a = l2.b) && decide (l1.b = l2.a))

/-- Modelled from the spec: link `i` is a `duplicate` when another link is
the same unordered edge. -/
def hasDuplicate (links : List Link) (i : ℕ) (link : Link) : Bool :=
  links.enum.any (fun jl => decide (jl.1 ≠ i) && sameUnorderedEdge link jl.2)

/-- Modelled from the spec: the errors of one endpoint — `missing` when the
dotted path does not resolve, `inaccurate` when it resolves to a node that
still has children. -/
def endpointErrors (systems : List SpecSystem) (pathStr ptr : String) :
    List ValidationError :=
  match resolveSegments (splitOnDot pathStr) systems with
  | none => [⟨"missing", ptr⟩]
  | some s => if s.systems.isEmpty then [] else [⟨"inaccurate", ptr⟩]

/-- Modelled from the spec: the validation errors of link `i`, in the order
the load tests observe (`self-reference`, then the `a` endpoint, then the
`b` endpoint, then `duplicate`). -/
def validateLink (systems : List SpecSystem) (links : List Link) (i : ℕ)
    (link : Link) : List ValidationError :=
  (if selfReferenceCheck link.a link.b then
    [⟨"self-reference", "/links/" ++ toString i⟩] else []) ++
  endpointErrors systems link.a ("/links/" ++ toString i ++ "/a") ++
  endpointErrors systems link.b ("/links/" ++ toString i ++ "/b") ++
  (if hasDuplicate links i link then [⟨"duplicate", "/links/" ++ toString i⟩] else [])

/-- Modelled from the spec: the link validation run by `load` — every link
checked in document order. -/
def validateLinksModel (systems : List SpecSystem) (links : List Link) :
    List ValidationError :=
  links.enum.flatMap (fun il => validateLink systems links il.1 il.2)

theorem mem_enumFrom_of_get? {x : Link} :
    ∀ {l : List Link} {i n : ℕ}, l.get? i = some x → (n + i, x) ∈ l.enumFrom n := by
  intro l
  induction l with
  | nil => intro i n h; cases h
  | cons a t ih =>
    intro i n h
    cases i with
    | zero =>
      rw [List.get?_cons_zero, Option.some_inj] at h
      subst h
      exact List.mem_cons_self _ _
    | succ i =>
      rw [List.get?_cons_succ] at h
      have := @ih i (n + 1) h
      have heq : n + (i + 1) = n + 1 + i := by omega
      rw [heq]
      exact List.mem_cons_of_mem _ this

theorem mem_enum_of_get? {l : List Link} {i : ℕ} {x : Link}
    (h : l.get? i = some x) : (i, x) ∈ l.enum := by
  have := @mem_enumFrom_of_get? x l i 0 h
  simpa using this

/-- Claim C7: for any link list with a pair of links that are the same
unordered edge in opposite directions, validation reports `duplicate` on
both members with paths `/links/i` and `/links/j`; and on the two-sibling
two-direction scenario the errors are exactly the two duplicates.
The validator is modelled from the specification (`validations.ts` is not
in the snapshot). -/
theorem c7_duplicate_links (systems : List SpecSystem) (links : List Link)
    (i j : ℕ) (li lj : Link) (hij : i ≠ j) (hi : links.get? i = some li)
    (hj : links.get? j = some lj) (hab : li.a = lj.b) (hba : li.b = lj.a) :
    (⟨"duplicate", "/links/" ++ toString i⟩ : ValidationError) ∈
        validateLinksModel systems links ∧
      (⟨"duplicate", "/links/" ++ toString j⟩ : ValidationError) ∈
        validateLinksModel systems links ∧
      validateLinksModel [SpecSystem.mk "foo" [], SpecSystem.mk "bar" []]
          [⟨"foo", "bar"⟩, ⟨"bar", "foo"⟩] =
        [⟨"duplicate", "/links/0"⟩, ⟨"duplicate", "/links/1"⟩] := by
  have hdup : ∀ (i2 j2 : ℕ) (l2 l3 : Link), i2 ≠ j2 → links.get? i2 = some l2 →
      links.get? j2 = some l3 → sameUnorderedEdge l2 l3 = true →
      (⟨"duplicate", "/links/" ++ toString i2⟩ : ValidationError) ∈
        validateLinksModel systems links := by
    intro i2 j2 l2 l3 hne hg2 hg3 hsame
    unfold validateLinksModel
    rw [List.mem_flatMap]
    refine ⟨(i2, l2), mem_enum_of_get? hg2, ?_⟩
    unfold validateLink
    have hflag : hasDuplicate links i2 l2 = true := by
      unfold hasDuplicate
      rw [List.any_eq_true]
      refine ⟨(j2, l3), mem_enum_of_get? hg3, ?_⟩
      rw [Bool.and_eq_true, decide_eq_true_eq]
      exact ⟨fun h => hne h.symm, hsame⟩
    rw [hflag]
    simp only [if_true]
    refine List.mem_append.mpr (Or.inr ?_)
    exact List.mem_singleton_self _
  have hsame1 : sameUnorderedEdge li lj = true := by
    unfold sameUnorderedEdge
    rw [Bool.or_eq_true, Bool.and_eq_true, Bool.and_eq_true]
    refine Or.inr ⟨?_, ?_⟩ <;> rw [decide_eq_true_eq]
    · exact hab
    · exact hba
  have hsame2 : sameUnorderedEdge lj li = true := by
    unfold sameUnorderedEdge
    rw [Bool.or_eq_true, Bool.and_eq_true, Bool.and_eq_true]
    refine Or.inr ⟨?_, ?_⟩ <;> rw [decide_eq_true_eq]
    · exact hba.symm
    · exact hab.symm
  refine ⟨hdup i j li lj hij hi hj hsame1, hdup j i lj li (Ne.symm hij) hj hi hsame2, ?_⟩
  decide

/-- Concrete instance of claim C7: the two-sibling two-direction scenario of
the test suite. -/
theorem c7_duplicate_links_witness :
    (⟨"duplicate", "/links/" ++ toString 0⟩ : ValidationError) ∈
      validateLinksModel [SpecSystem.mk "foo" [], SpecSystem.mk "bar" []]
        [⟨"foo", "bar"⟩, ⟨"bar", "foo"⟩] :=
  (c7_duplicate_links [SpecSystem.mk "foo" [], SpecSystem.mk "bar" []]
    [⟨"foo", "bar"⟩, ⟨"bar", "foo"⟩] 0 1 ⟨"foo", "bar"⟩ ⟨"bar", "foo"⟩
    (by decide) (by decide) (by decide) rfl rfl).1

end Dataflows
